import Mathlib

/-!
Verification development for a small chess engine (`chess.cpp`).

The engine is shallowly embedded: the board is a function from the 64
squares to characters (`0` denotes an empty cell, upper-case letters are
White pieces, lower-case letters Black pieces, exactly as in the source),
squares are `Int` indices as in the C++ code, machine integers are modelled
by `Int` (all arithmetic performed by the engine stays far inside the
32-bit range on the inputs considered), the process-global transposition
table is threaded explicitly through the search as an association list
whose lookup discipline mirrors `std::unordered_map::find` and whose
`operator[]` assignment is modelled by shadowing insertion, and the
`std::mt19937`/`uniform_real_distribution` random source of the root
selector is modelled by an explicit stream of rational draws.
`std::sort` with the MVV-LVA comparator is modelled by a deterministic
(stable, insertion) sort; the C++ order of elements comparing equal is
unspecified, so this fixes one admissible order.
-/

namespace ChessEngine

/-- Source item `enum Side`. -/
inductive Side where
  | WHITE
  | BLACK
deriving DecidableEq, Repr

/-- Source item `Side(side ^ 1)` : flipping the side to move. -/
def flipSide : Side → Side
  | .WHITE => .BLACK
  | .BLACK => .WHITE

/-- The `char` value `0` used for empty board cells, absent capture and
absent promotion. -/
def nullChar : Char := Char.ofNat 0

/-- Source item `struct Move`  (`from` is a Lean keyword, hence `fromSq`/`toSq`). -/
structure Move where
  fromSq : Int
  toSq : Int
  captured : Char
  promo : Char
deriving DecidableEq, Repr

/-- Source item `struct Undo`. -/
structure Undo where
  m : Move
deriving DecidableEq, Repr

/-- The `std::array<char, 64>` board. -/
def Board : Type := Fin 64 → Char

/-- Source item `struct Position`. -/
structure Position where
  board : Board
  side : Side

/-- Reading `board[sq]` (every access in the source is guarded by
`isOnBoard`, so the out-of-range default is never observable). -/
def getSq (b : Board) (sq : Int) : Char :=
  if h : 0 ≤ sq ∧ sq < 64 then b ⟨sq.toNat, by omega⟩ else nullChar

/-- Writing `board[sq] = c`. -/
def setSq (b : Board) (sq : Int) (c : Char) : Board :=
  if h : 0 ≤ sq ∧ sq < 64 then Function.update b ⟨sq.toNat, by omega⟩ c else b

/-- Source item `fileOf`: `square & 7` (on two's-complement ints this is the
Euclidean remainder). -/
def fileOf (square : Int) : Int := square % 8

/-- Source item `rankOf`: `square >> 3` (arithmetic shift, i.e. floor division). -/
def rankOf (square : Int) : Int := square.fdiv 8

/-- Source item `isOnBoard`. -/
def isOnBoard (square : Int) : Prop := 0 ≤ square ∧ square < 64

instance (square : Int) : Decidable (isOnBoard square) := by
  unfold isOnBoard; infer_instance

/-- Source item `std::isupper` on the 7-bit characters the engine uses. -/
def isWhitePiece (p : Char) : Bool := decide ('A' ≤ p ∧ p ≤ 'Z')

/-- Source item `std::islower` on the 7-bit characters the engine uses. -/
def isBlackPiece (p : Char) : Bool := decide ('a' ≤ p ∧ p ≤ 'z')

/-- Source item `std::tolower` in the C locale. -/
def asciiToLower (c : Char) : Char :=
  if 'A' ≤ c ∧ c ≤ 'Z' then Char.ofNat (c.toNat + 32) else c

/-- Source item `std::toupper` in the C locale. -/
def asciiToUpper (c : Char) : Char :=
  if 'a' ≤ c ∧ c ≤ 'z' then Char.ofNat (c.toNat - 32) else c

/-- Source item `pieceValue`. -/
def pieceValue (p : Char) : Int :=
  if asciiToLower p = 'p' then 100
  else if asciiToLower p = 'n' then 320
  else if asciiToLower p = 'b' then 330
  else if asciiToLower p = 'r' then 500
  else if asciiToLower p = 'q' then 900
  else if asciiToLower p = 'k' then 20000
  else 0

def knightOffsets : List Int := [-17, -15, -10, -6, 6, 10, 15, 17]
def bishopOffsets : List Int := [-9, -7, 7, 9]
def rookOffsets : List Int := [-8, -1, 1, 8]
def kingOffsets : List Int := [-9, -8, -7, -1, 1, 7, 8, 9]

/-- Source item `addMove`: records the captured piece from the destination square and
silently drops any pseudo-capture of a king.  The `std::vector` push is
modelled by returning the (zero- or one-element) list of pushed moves. -/
def addMove (pos : Position) (fromSq toSq : Int) (promo : Char) : List Move :=
  let cap := getSq pos.board toSq
  if cap ≠ nullChar ∧ asciiToLower cap = 'k' then []
  else [⟨fromSq, toSq, cap, promo⟩]

/-- Does the character at `sq` belong to `bySide`?  (`bySide == WHITE ?
isWhitePiece(...) : isBlackPiece(...)`). -/
def sideMatch (bySide : Side) (c : Char) : Bool :=
  match bySide with
  | .WHITE => isWhitePiece c
  | .BLACK => isBlackPiece c

/-- The board-dependent part of every attack test in `isAttacked`:
`board[sq] && sideMatch && tolower(board[sq]) ∈ kinds`. -/
def attackProbe (b : Board) (bySide : Side) (sq : Int) (kinds : List Char) : Bool :=
  decide (getSq b sq ≠ nullChar) && sideMatch bySide (getSq b sq)
    && kinds.contains (asciiToLower (getSq b sq))

/-- The pawn block of `isAttacked`. -/
def pawnAttacks (b : Board) (target : Int) (bySide : Side) : Bool :=
  let dir : Int := if bySide = .WHITE then 8 else -8
  ([-1, 1] : List Int).any fun dx =>
    let sq := target + dir + dx
    decide (isOnBoard sq ∧ (fileOf sq - fileOf target).natAbs = 1)
      && attackProbe b bySide sq ['p']

/-- The knight block of `isAttacked`. -/
def knightAttacks (b : Board) (target : Int) (bySide : Side) : Bool :=
  knightOffsets.any fun d =>
    let sq := target + d
    decide (isOnBoard sq ∧ (fileOf target - fileOf sq).natAbs ≤ 2)
      && attackProbe b bySide sq ['n']

/-- One diagonal ray of the bishop/queen block of `isAttacked`; `sq` is the
current probe square (the C++ loop variable), initially `target + d`.  The
fuel is a bound on the iteration count: any ray leaves the board after at
most 8 steps, so fuel 16 never runs out. -/
def bishopAttackRay (b : Board) (bySide : Side) (d : Int) : Nat → Int → Bool
  | 0, _ => false
  | fuel + 1, sq =>
    if isOnBoard sq ∧ (fileOf (sq - d) - fileOf sq).natAbs = 1 then
      if getSq b sq = nullChar then bishopAttackRay b bySide d fuel (sq + d)
      else attackProbe b bySide sq ['b', 'q']
    else false

/-- One orthogonal ray of the rook/queen block of `isAttacked`. -/
def rookAttackRay (b : Board) (bySide : Side) (d : Int) : Nat → Int → Bool
  | 0, _ => false
  | fuel + 1, sq =>
    if isOnBoard sq ∧ ¬((d = -1 ∨ d = 1) ∧ rankOf (sq - d) ≠ rankOf sq) then
      if getSq b sq = nullChar then rookAttackRay b bySide d fuel (sq + d)
      else attackProbe b bySide sq ['r', 'q']
    else false

/-- The king block of `isAttacked`. -/
def kingAttacks (b : Board) (target : Int) (bySide : Side) : Bool :=
  kingOffsets.any fun d =>
    let sq := target + d
    decide (isOnBoard sq ∧ (fileOf target - fileOf sq).natAbs ≤ 1)
      && attackProbe b bySide sq ['k']

/-- Source item `isAttacked` on a bare board. -/
def isAttackedB (b : Board) (target : Int) (bySide : Side) : Bool :=
  pawnAttacks b target bySide
    || knightAttacks b target bySide
    || bishopOffsets.any (fun d => bishopAttackRay b bySide d 16 (target + d))
    || rookOffsets.any (fun d => rookAttackRay b bySide d 16 (target + d))
    || kingAttacks b target bySide

/-- Source item `isAttacked`. -/
def isAttacked (pos : Position) (target : Int) (bySide : Side) : Bool :=
  isAttackedB pos.board target bySide

/-- Source item `kingSquare`: index of the first cell holding the given side's king,
`-1` when absent. -/
def kingSquare (pos : Position) (sideToFind : Side) : Int :=
  let kc : Char := if sideToFind = .WHITE then 'K' else 'k'
  match (List.range 64).find? (fun (i : Nat) => getSq pos.board (i : Int) = kc) with
  | some i => (i : Int)
  | none => -1

/-- Source item `isInCheck`. -/
def isInCheck (pos : Position) (sideToMove : Side) : Bool :=
  isAttacked pos (kingSquare pos sideToMove) (flipSide sideToMove)

/-- The pawn block of `generateMoves` for the pawn `pc` on square `s`. -/
def pawnMovesAt (pos : Position) (s : Int) (pc : Char) : List Move :=
  let dir : Int := if isWhitePiece pc then -8 else 8
  let fwd := s + dir
  let forward :=
    if isOnBoard fwd ∧ getSq pos.board fwd = nullChar then
      (if rankOf fwd = 0 ∨ rankOf fwd = 7 then addMove pos s fwd 'q'
       else addMove pos s fwd nullChar)
      ++
      (let dbl := s + 2 * dir
       if ((rankOf s = 6 ∧ isWhitePiece pc) ∨ (rankOf s = 1 ∧ isBlackPiece pc))
           ∧ isOnBoard dbl ∧ getSq pos.board dbl = nullChar then
         addMove pos s dbl nullChar
       else [])
    else []
  let caps := ([-1, 1] : List Int).flatMap fun dx =>
    let cap := s + dir + dx
    if isOnBoard cap ∧ (fileOf cap - fileOf s).natAbs = 1
        ∧ getSq pos.board cap ≠ nullChar
        ∧ isWhitePiece pc ≠ isWhitePiece (getSq pos.board cap) then
      (if rankOf cap = 0 ∨ rankOf cap = 7 then addMove pos s cap 'q'
       else addMove pos s cap nullChar)
    else []
  forward ++ caps

/-- The knight block of `generateMoves`. -/
def knightMovesAt (pos : Position) (s : Int) (pc : Char) : List Move :=
  knightOffsets.flatMap fun d =>
    let t := s + d
    if isOnBoard t ∧ (fileOf s - fileOf t).natAbs ≤ 2
        ∧ (getSq pos.board t = nullChar
           ∨ isWhitePiece pc ≠ isWhitePiece (getSq pos.board t)) then
      addMove pos s t nullChar
    else []

/-- One diagonal ray of the bishop/queen block of `generateMoves`;
`t` is the previous square of the walk (initially `s` itself). -/
def slideRayB (pos : Position) (pc : Char) (s d : Int) : Nat → Int → List Move
  | 0, _ => []
  | fuel + 1, t =>
    let t2 := t + d
    if isOnBoard t2 ∧ (fileOf t - fileOf t2).natAbs = 1 then
      if getSq pos.board t2 = nullChar then
        addMove pos s t2 nullChar ++ slideRayB pos pc s d fuel t2
      else if isWhitePiece pc ≠ isWhitePiece (getSq pos.board t2) then
        addMove pos s t2 nullChar
      else []
    else []

/-- One orthogonal ray of the rook/queen block of `generateMoves`. -/
def slideRayR (pos : Position) (pc : Char) (s d : Int) : Nat → Int → List Move
  | 0, _ => []
  | fuel + 1, t =>
    let t2 := t + d
    if isOnBoard t2 ∧ ¬((d = -1 ∨ d = 1) ∧ rankOf t ≠ rankOf t2) then
      if getSq pos.board t2 = nullChar then
        addMove pos s t2 nullChar ++ slideRayR pos pc s d fuel t2
      else if isWhitePiece pc ≠ isWhitePiece (getSq pos.board t2) then
        addMove pos s t2 nullChar
      else []
    else []

/-- Diagonal slider moves (`lower == 'b' || lower == 'q'`). -/
def bishopMovesAt (pos : Position) (s : Int) (pc : Char) : List Move :=
  bishopOffsets.flatMap fun d => slideRayB pos pc s d 16 s

/-- Orthogonal slider moves (`lower == 'r' || lower == 'q'`). -/
def rookMovesAt (pos : Position) (s : Int) (pc : Char) : List Move :=
  rookOffsets.flatMap fun d => slideRayR pos pc s d 16 s

/-- The king block of `generateMoves`. -/
def kingMovesAt (pos : Position) (s : Int) (pc : Char) : List Move :=
  kingOffsets.flatMap fun d =>
    let t := s + d
    if isOnBoard t ∧ (fileOf s - fileOf t).natAbs ≤ 1
        ∧ (getSq pos.board t = nullChar
           ∨ isWhitePiece pc ≠ isWhitePiece (getSq pos.board t)) then
      addMove pos s t nullChar
    else []

/-- The per-square body of the scan loop of `generateMoves`. -/
def pieceMovesAt (pos : Position) (s : Int) : List Move :=
  let pc := getSq pos.board s
  if pc = nullChar then []
  else if (pos.side = .WHITE ∧ isWhitePiece pc = false)
      ∨ (pos.side = .BLACK ∧ isBlackPiece pc = false) then []
  else
    let lower := asciiToLower pc
    if lower = 'p' then pawnMovesAt pos s pc
    else if lower = 'n' then knightMovesAt pos s pc
    else
      (if lower = 'b' ∨ lower = 'q' then bishopMovesAt pos s pc else [])
      ++ (if lower = 'r' ∨ lower = 'q' then rookMovesAt pos s pc else [])
      ++ (if lower = 'k' then kingMovesAt pos s pc else [])

/-- Source item `generateMoves`: squares are scanned in increasing order, exactly the
order in which the C++ loop pushes moves. -/
def generateMoves (pos : Position) : List Move :=
  (List.range 64).flatMap fun (s : Nat) => pieceMovesAt pos (s : Int)

/-- The in-place simulation used inside `generateLegalMoves`:
`board[to] = board[from]; board[from] = 0; side ^= 1` — note that a
promotion move is simulated without performing the promotion. -/
def simApply (pos : Position) (m : Move) : Position :=
  { board := setSq (setSq pos.board m.toSq (getSq pos.board m.fromSq)) m.fromSq nullChar,
    side := flipSide pos.side }

/-- Source item `generateLegalMoves`.  The C++ code makes each raw move on the shared
`Position`, tests check, and then reverts board and side exactly (the
captured piece recorded by `addMove` is what makes the revert exact), so
its net effect is this filter over the pseudo-legal moves. -/
def generateLegalMoves (pos : Position) : List Move :=
  (generateMoves pos).filter fun m => ! isInCheck (simApply pos m) pos.side

/-- Source item `makeMove` (the mutated position and the filled-in `Undo` record). -/
def makeMove (pos : Position) (m : Move) : Position × Undo :=
  let pc := getSq pos.board m.fromSq
  let placed :=
    if m.promo ≠ nullChar then
      (if isWhitePiece pc then asciiToUpper m.promo else asciiToLower m.promo)
    else pc
  ({ board := setSq (setSq pos.board m.toSq placed) m.fromSq nullChar,
     side := flipSide pos.side },
   ⟨m⟩)

/-- Source item `undoMove`. -/
def undoMove (pos : Position) (u : Undo) : Position :=
  let m := u.m
  let moved := getSq pos.board m.toSq
  let restored :=
    if m.promo ≠ nullChar then (if isWhitePiece moved then 'P' else 'p') else moved
  { board := setSq (setSq pos.board m.fromSq restored) m.toSq m.captured,
    side := flipSide pos.side }

/-- Source item `evaluate`: signed material sum, from the mover's perspective. -/
def evaluate (pos : Position) : Int :=
  let sum := (List.range 64).foldl
    (fun (acc : Int) (i : Nat) =>
      let pc := getSq pos.board (i : Int)
      if pc ≠ nullChar then
        acc + (if isWhitePiece pc then pieceValue pc else -pieceValue pc)
      else acc)
    0
  if pos.side = .WHITE then sum else -sum

end ChessEngine

namespace ChessEngine

/-- Source item `struct TTEntry`.  Entries are only ever written with the nonnegative
depth of the writing call, so the depth is modelled by `Nat`. -/
structure TTEntry where
  depth : Nat
  score : Int
deriving DecidableEq, Repr

/-- The key of the transposition table: the C++ code concatenates the 64
board characters, the side character and the decimal depth into one
string; this concatenation is injective in (board, side, depth), so the
key is modelled by the triple itself. -/
structure TTKey where
  depth : Nat
  side : Side
  board : Board

/-- Key equality, exactly string equality of the C++ keys: the two depths,
sides, and all 64 board characters coincide. -/
def keyMatch (k1 k2 : TTKey) : Bool :=
  decide (k1.depth = k2.depth) && decide (k1.side = k2.side)
    && (List.range 64).all fun (i : Nat) =>
        decide (getSq k1.board (i : Int) = getSq k2.board (i : Int))

/-- The transposition table.  Only `find` and `operator[]` assignment are
ever applied to the C++ `unordered_map`, so an association list searched
front-to-back, with assignment modelled by a shadowing `cons`, has exactly
the same observable behaviour. -/
def TT : Type := List (TTKey × TTEntry)

/-- The empty table (initial state, and the state after `clear()`). -/
def ttEmpty : TT := []

/-- Source item `transpositionTable.find(ttKey)`. -/
def ttFind (tt : TT) (k : TTKey) : Option TTEntry :=
  ((tt : List (TTKey × TTEntry)).find? fun kv => keyMatch kv.1 k).map fun kv => kv.2

/-- Source item `transpositionTable[ttKey] = e`. -/
def ttStore (tt : TT) (k : TTKey) (e : TTEntry) : TT :=
  (k, e) :: (tt : List (TTKey × TTEntry))

/-- The key built at the top of `alphaBetaSearch`. -/
def ttKey (pos : Position) (depth : Nat) : TTKey :=
  ⟨depth, pos.side, pos.board⟩

/-- The MVV-LVA sort key: `victimValue - attackerValue` for captures,
`0` for quiet moves. -/
def mvvScore (pos : Position) (m : Move) : Int :=
  if m.captured ≠ nullChar then
    pieceValue m.captured - pieceValue (getSq pos.board m.fromSq)
  else 0

/-- Insertion step of the deterministic (stable) model of `std::sort`
with the strict comparator `mvvScore m1 > mvvScore m2`. -/
def insertSorted (pos : Position) (m : Move) : List Move → List Move
  | [] => [m]
  | x :: xs =>
    if mvvScore pos m ≥ mvvScore pos x then m :: x :: xs
    else x :: insertSorted pos m xs

/-- Stable descending MVV-LVA sort. -/
def sortMoves (pos : Position) (ms : List Move) : List Move :=
  ms.foldr (insertSorted pos) []

/-- The move loop of `alphaBetaSearch`: make, recurse with the negated
swapped window, undo (the model is pure, so no undo is needed), beta
cutoff, best/alpha bookkeeping.  `recur` is the search at `depth - 1`. -/
def abLoop (recur : TT → Position → Int → Int → Int × TT) (pos : Position)
    (beta : Int) : List Move → TT → Int → Int → Int × TT
  | [], tt, _, best => (best, tt)
  | m :: ms, tt, alpha, best =>
    let r := recur tt (makeMove pos m).1 (-beta) (-alpha)
    let score := -r.1
    if score ≥ beta then (beta, r.2)
    else
      abLoop recur pos beta ms r.2
        (if score > alpha then score else alpha)
        (if score > best then score else best)

/-- The body of `alphaBetaSearch` at depth `d + 1` past the table lookup:
legal-move generation, mate/stalemate scoring, MVV-LVA ordering, the move
loop, and the unconditional store at the call's own key.  `recur` is the
search at depth `d`. -/
def alphaBetaMain (recur : TT → Position → Int → Int → Int × TT) (d : Nat)
    (tt : TT) (pos : Position) (alpha beta : Int) : Int × TT :=
  let moves := generateLegalMoves pos
  if moves = [] then
    let val : Int := if isInCheck pos pos.side then -100000 + ((d : Int) + 1) else 0
    (val, ttStore tt (ttKey pos (d + 1)) ⟨d + 1, val⟩)
  else
    let r := abLoop recur pos beta (sortMoves pos moves) tt alpha (-1000000000)
    (r.1, ttStore r.2 (ttKey pos (d + 1)) ⟨d + 1, r.1⟩)

/-- Source item `alphaBetaSearch`.  The global table is threaded explicitly: the
function returns the score together with the updated table.  The search
depth is a `Nat` (the C++ code only ever calls the search with
nonnegative depths; a negative depth would never terminate). -/
def alphaBetaSearch : Nat → TT → Position → Int → Int → Int × TT
  | 0, tt, pos, _, _ =>
    (match ttFind tt (ttKey pos 0) with
     | some e => if 0 ≤ e.depth then (e.score, tt) else (evaluate pos, tt)
     | none => (evaluate pos, tt))
  | d + 1, tt, pos, alpha, beta =>
    match ttFind tt (ttKey pos (d + 1)) with
    | some e =>
      if d + 1 ≤ e.depth then (e.score, tt)
      else alphaBetaMain (alphaBetaSearch d) d tt pos alpha beta
    | none => alphaBetaMain (alphaBetaSearch d) d tt pos alpha beta

/-- The root move loop of `searchBestMove`.  `rnd` is the stream of draws
of the uniform [0,1) distribution and `i` the index of the next draw; when
`randProb > 0` each iteration consumes one draw. -/
def sbLoop (recur : TT → Position → Int → Int → Int × TT) (rnd : Nat → Rat)
    (randProb : Rat) (pos : Position) :
    List Move → Nat → TT → Int → Move → Move × TT
  | [], _, tt, _, best => (best, tt)
  | m :: ms, i, tt, bestScore, best =>
    if 0 < randProb ∧ rnd i < randProb then (m, tt)
    else
      let r := recur tt (makeMove pos m).1 (-1000000000) 1000000000
      let score := -r.1
      if score > bestScore then sbLoop recur rnd randProb pos ms (i + 1) r.2 score m
      else sbLoop recur rnd randProb pos ms (i + 1) r.2 bestScore best

/-- Source item `searchBestMove`.  `best` is initialised with `moves[0]` BEFORE the
root sort; with no legal moves this very first access is out of bounds
(undefined behaviour), modelled by the `none` result. -/
def searchBestMove (rnd : Nat → Rat) (tt : TT) (pos : Position) (depth : Nat)
    (randProb : Rat) : Option Move × TT :=
  let moves := generateLegalMoves pos
  match moves with
  | [] => (none, tt)
  | m0 :: _ =>
    let r := sbLoop (alphaBetaSearch (depth - 1)) rnd randProb pos
      (sortMoves pos moves) 0 tt (-1000000000) m0
    (some r.1, r.2)

/-- Source item `algebraicToSquare` on the two characters of a square string. -/
def algebraicToSquare (c0 c1 : Char) : Int :=
  (('8'.toNat : Int) - (c1.toNat : Int)) * 8 + ((c0.toNat : Int) - ('a'.toNat : Int))

/-- The `Game` wrapper class.  The transposition table is global in the
C++ program, so the operations that touch it take and return it
explicitly. -/
structure Game where
  pos : Position
  whiteCaps : List Char
  blackCaps : List Char
  levelDepth : Int
  randomProbability : Rat
  lastMove : String

/-- Source item `Game::setLevel` (also clears the shared transposition table).  The
`double` literals are modelled by the equal rationals. -/
def setLevel (g : Game) (lvl : Int) (_tt : TT) : Game × TT :=
  if lvl = 1 then ({ g with levelDepth := 2, randomProbability := 35 / 100 }, ttEmpty)
  else if lvl = 2 then ({ g with levelDepth := 4, randomProbability := 0 }, ttEmpty)
  else ({ g with levelDepth := 6, randomProbability := 0 }, ttEmpty)

/-- The initial board layout of the `Game` constructor. -/
def initialList : List Char :=
  ['r','n','b','q','k','b','n','r',
   'p','p','p','p','p','p','p','p',
   nullChar,nullChar,nullChar,nullChar,nullChar,nullChar,nullChar,nullChar,
   nullChar,nullChar,nullChar,nullChar,nullChar,nullChar,nullChar,nullChar,
   nullChar,nullChar,nullChar,nullChar,nullChar,nullChar,nullChar,nullChar,
   nullChar,nullChar,nullChar,nullChar,nullChar,nullChar,nullChar,nullChar,
   'P','P','P','P','P','P','P','P',
   'R','N','B','Q','K','B','N','R']

def initialBoard : Board := fun i => initialList.getD i.1 nullChar

/-- Source item `Game::Game(int level)`: standard start position, White to move, then
`setLevel(level)`.  The depth/probability fields are dead before
`setLevel` assigns them; `0` stands for their indeterminate values. -/
def mkGame (level : Int) (tt : TT) : Game × TT :=
  setLevel
    { pos := { board := initialBoard, side := .WHITE },
      whiteCaps := [], blackCaps := [], levelDepth := 0,
      randomProbability := 0, lastMove := "" }
    level tt

/-- The C++ constructor's default argument is `level = 2`. -/
def mkGameDefault (tt : TT) : Game × TT := mkGame 2 tt

/-- Source item `Game::playerMove`. -/
def playerMove (g : Game) (s : String) : Bool × Game :=
  if s.length ≠ 4 then (false, g)
  else
    let cs := s.data
    let f := algebraicToSquare (cs.getD 0 nullChar) (cs.getD 1 nullChar)
    let t := algebraicToSquare (cs.getD 2 nullChar) (cs.getD 3 nullChar)
    match (generateLegalMoves g.pos).find? (fun m => decide (m.fromSq = f ∧ m.toSq = t)) with
    | some m =>
      (true,
       { g with
         pos := (makeMove g.pos m).1,
         whiteCaps := if m.captured ≠ nullChar then g.whiteCaps ++ [m.captured] else g.whiteCaps,
         lastMove := "You: " ++ String.mk (cs.take 2) ++ "-" ++ String.mk (cs.drop 2) })
    | none => (false, g)

/-! ### Definitions used by the statements of the claims -/

/-- The invariants satisfied by every move pushed by `generateMoves`:
both squares are on the board and distinct, the captured field records the
destination's occupant (never a king, by the `addMove` guard), the source
holds a piece of the side to move, and a promotion is always to a queen
and always by a pawn. -/
def MoveOk (pos : Position) (m : Move) : Prop :=
  isOnBoard m.fromSq ∧ isOnBoard m.toSq ∧ m.fromSq ≠ m.toSq
  ∧ m.captured = getSq pos.board m.toSq
  ∧ asciiToLower m.captured ≠ 'k'
  ∧ getSq pos.board m.fromSq ≠ nullChar
  ∧ sideMatch pos.side (getSq pos.board m.fromSq) = true
  ∧ (m.promo = nullChar
     ∨ (m.promo = 'q' ∧ asciiToLower (getSq pos.board m.fromSq) = 'p'))

/-- Boards indistinguishable by occupancy and by the attack probes of
`bySide`. -/
def ProbeEq (bySide : Side) (b1 b2 : Board) : Prop :=
  ∀ sq : Int, (getSq b1 sq = nullChar ↔ getSq b2 sq = nullChar)
    ∧ ∀ ks : List Char, attackProbe b1 bySide sq ks = attackProbe b2 bySide sq ks

/-- The lookup at `k` does not qualify for reuse: either no entry is
present, or the recorded depth is below the requested one. -/
def ttMiss (tt : TT) (k : TTKey) : Prop :=
  ∀ e, ttFind tt k = some e → e.depth < k.depth

/-- Number of board cells holding a king character of either color. -/
def kingCount (b : Board) : Nat :=
  ((List.range 64).filter
    (fun (i : Nat) => decide (getSq b (i : Int) = 'K' ∨ getSq b (i : Int) = 'k'))).length

/-! ### Concrete positions used by the witnesses and counterexamples -/

/-- The standard start position (the constructor's board). -/
def startPos : Position := ⟨initialBoard, .WHITE⟩

/-- A sparse board given as an association list of occupied squares. -/
def boardOf (ps : List (Nat × Char)) : Board := fun i =>
  (((ps.find? fun p => p.1 = i.1).map fun p => p.2).getD nullChar)

/-- Bare kings on a1 and h8, White to move. -/
def posP2 : Position := ⟨boardOf [(56, 'K'), (7, 'k')], .WHITE⟩

/-- Black king a8 mated by the white rook on h8, the white king on b6
covering the escape squares; Black to move. -/
def posPA : Position := ⟨boardOf [(0, 'k'), (17, 'K'), (7, 'R')], .BLACK⟩

/-- The same material with the rook on h2 instead: Black's only legal
move is Kb8, after which Rh8 is mate; Black to move. -/
def posPB : Position := ⟨boardOf [(0, 'k'), (17, 'K'), (55, 'R')], .BLACK⟩

/-- A position with a white pawn one step from promotion. -/
def posProm : Position := ⟨boardOf [(56, 'K'), (7, 'k'), (8, 'P')], .WHITE⟩

/-- A position with a white pawn able to capture-promote on b8. -/
def posPromCap : Position := ⟨boardOf [(56, 'K'), (7, 'k'), (8, 'P'), (1, 'r')], .WHITE⟩

/-- A `Game` value at the standard start position. -/
def initGame : Game := ⟨startPos, [], [], 4, 0, ""⟩

end ChessEngine

namespace ChessEngine

/-! ### Basic facts about characters, squares and boards -/

@[simp] theorem flipSide_flipSide (s : Side) : flipSide (flipSide s) = s := by
  cases s <;> rfl

theorem char_eq_of_toNat_eq {c d : Char} (h : c.toNat = d.toNat) : c = d := by
  apply Char.eq_of_val_eq
  apply UInt32.ext
  exact h

theorem toNat_charOfNat (n : Nat) (h : n < 55296) : (Char.ofNat n).toNat = n := by
  have hv : n.isValidChar := Or.inl h
  simp [Char.ofNat, hv, Char.ofNatAux, Char.toNat, UInt32.toNat, BitVec.toNat_ofNat]

/-- The only characters that `tolower` sends to `'p'` are the two pawn
characters. -/
theorem asciiToLower_eq_p {c : Char} (h : asciiToLower c = 'p') : c = 'p' ∨ c = 'P' := by
  unfold asciiToLower at h
  by_cases h1 : 'A' ≤ c ∧ c ≤ 'Z'
  · rw [if_pos h1] at h
    have h2 : (Char.ofNat (c.toNat + 32)).toNat = c.toNat + 32 := by
      have hz : c.toNat ≤ 90 := h1.2
      exact toNat_charOfNat _ (by omega)
    have h3 : c.toNat + 32 = 112 := by rw [h] at h2; exact h2.symm
    right
    apply char_eq_of_toNat_eq
    show c.toNat = 80
    omega
  · rw [if_neg h1] at h
    exact Or.inl h

theorem getSq_setSq_self (b : Board) (sq : Int) (c : Char) (h : isOnBoard sq) :
    getSq (setSq b sq c) sq = c := by
  unfold getSq setSq
  obtain ⟨h1, h2⟩ := h
  rw [dif_pos ⟨h1, h2⟩, dif_pos ⟨h1, h2⟩, Function.update_same]

theorem getSq_setSq_ne (b : Board) (sq sq2 : Int) (c : Char) (h : sq ≠ sq2) :
    getSq (setSq b sq c) sq2 = getSq b sq2 := by
  unfold getSq setSq
  by_cases h1 : 0 ≤ sq ∧ sq < 64
  · rw [dif_pos h1]
    by_cases h2 : 0 ≤ sq2 ∧ sq2 < 64
    · rw [dif_pos h2, dif_pos h2]
      rw [Function.update_noteq]
      intro hf
      apply h
      have := congrArg Fin.val hf
      simp only [] at this
      omega
    · rw [dif_neg h2, dif_neg h2]
  · rw [dif_neg h1]

theorem getSq_oob (b : Board) (sq : Int) (h : ¬ isOnBoard sq) : getSq b sq = nullChar := by
  unfold getSq
  rw [dif_neg]
  exact fun hc => h hc

theorem setSq_oob (b : Board) (sq : Int) (c : Char) (h : ¬ isOnBoard sq) :
    setSq b sq c = b := by
  unfold setSq
  rw [dif_neg]
  exact fun hc => h hc

theorem fin_onBoard (i : Fin 64) : isOnBoard (i.1 : Int) :=
  ⟨Int.ofNat_nonneg _, by exact_mod_cast i.2⟩

theorem getSq_fin (b : Board) (i : Fin 64) : getSq b (i.1 : Int) = b i := by
  unfold getSq
  rw [dif_pos (show (0 : Int) ≤ (i.1 : Int) ∧ (i.1 : Int) < 64 from fin_onBoard i)]
  congr 1

/-- Boards that agree through `getSq` on the 64 squares are equal. -/
theorem board_ext {b1 b2 : Board}
    (h : ∀ sq : Int, isOnBoard sq → getSq b1 sq = getSq b2 sq) : b1 = b2 := by
  funext i
  rw [← getSq_fin b1 i, ← getSq_fin b2 i]
  exact h (i.1 : Int) (fin_onBoard i)

end ChessEngine

namespace ChessEngine

/-! ### Soundness facts about the pseudo-legal move generator -/

theorem mem_ite_list {α : Type} {c : Prop} [Decidable c] {l1 l2 : List α} {m : α}
    (hm : m ∈ (if c then l1 else l2)) : (c ∧ m ∈ l1) ∨ (¬c ∧ m ∈ l2) := by
  by_cases hc : c
  · rw [if_pos hc] at hm; exact Or.inl ⟨hc, hm⟩
  · rw [if_neg hc] at hm; exact Or.inr ⟨hc, hm⟩

theorem addMove_sound {pos : Position} {s t : Int} {pr : Char} {m : Move}
    (hmem : m ∈ addMove pos s t pr) :
    m = ⟨s, t, getSq pos.board t, pr⟩ ∧ asciiToLower (getSq pos.board t) ≠ 'k' := by
  unfold addMove at hmem
  rcases mem_ite_list hmem with ⟨_, h2⟩ | ⟨h1, h2⟩
  · simp at h2
  · simp at h2
    refine ⟨h2, ?_⟩
    by_cases hc : getSq pos.board t = nullChar
    · rw [hc]; decide
    · exact fun hk => h1 ⟨hc, hk⟩

theorem addMove_ok {pos : Position} {s t : Int} {pr : Char}
    (hs : isOnBoard s) (ht : isOnBoard t) (hne : s ≠ t)
    (hpc : getSq pos.board s ≠ nullChar)
    (hside : sideMatch pos.side (getSq pos.board s) = true)
    (hpr : pr = nullChar ∨ (pr = 'q' ∧ asciiToLower (getSq pos.board s) = 'p')) :
    ∀ m ∈ addMove pos s t pr, MoveOk pos m := by
  intro m hm
  obtain ⟨hme, hcap⟩ := addMove_sound hm
  subst hme
  exact ⟨hs, ht, hne, rfl, hcap, hpc, hside, hpr⟩

theorem pawnMovesAt_ok {pos : Position} {s : Int} {pc : Char}
    (hs : isOnBoard s)
    (hpc : getSq pos.board s ≠ nullChar)
    (hside : sideMatch pos.side (getSq pos.board s) = true)
    (hp : asciiToLower (getSq pos.board s) = 'p') :
    ∀ m ∈ pawnMovesAt pos s pc, MoveOk pos m := by
  intro m hm
  unfold pawnMovesAt at hm
  have hq : ('q' : Char) = nullChar
      ∨ (('q' : Char) = 'q' ∧ asciiToLower (getSq pos.board s) = 'p') :=
    Or.inr ⟨rfl, hp⟩
  have hdir : (if isWhitePiece pc then (-8 : Int) else 8) = -8
      ∨ (if isWhitePiece pc then (-8 : Int) else 8) = 8 := by
    by_cases hw : isWhitePiece pc
    · rw [if_pos hw]; exact Or.inl rfl
    · rw [if_neg hw]; exact Or.inr rfl
  set dir : Int := if isWhitePiece pc then (-8 : Int) else 8 with hdirdef
  rcases List.mem_append.mp hm with hfwd | hcaps
  · rcases mem_ite_list hfwd with ⟨hg, hin⟩ | ⟨_, hin⟩
    · rcases List.mem_append.mp hin with hone | hdbl
      · rcases mem_ite_list hone with ⟨_, hin1⟩ | ⟨_, hin1⟩
        · exact addMove_ok hs hg.1 (by omega) hpc hside hq m hin1
        · exact addMove_ok hs hg.1 (by omega) hpc hside (Or.inl rfl) m hin1
      · rcases mem_ite_list hdbl with ⟨hg2, hin2⟩ | ⟨_, hin2⟩
        · exact addMove_ok hs hg2.2.1 (by omega) hpc hside (Or.inl rfl) m hin2
        · simp at hin2
    · simp at hin
  · rw [List.mem_flatMap] at hcaps
    obtain ⟨dx, hdx, hin⟩ := hcaps
    have hdx2 : dx = -1 ∨ dx = 1 := by simpa using hdx
    rcases mem_ite_list hin with ⟨hg, hin1⟩ | ⟨_, hin1⟩
    · rcases mem_ite_list hin1 with ⟨_, hin2⟩ | ⟨_, hin2⟩
      · exact addMove_ok hs hg.1 (by omega) hpc hside hq m hin2
      · exact addMove_ok hs hg.1 (by omega) hpc hside (Or.inl rfl) m hin2
    · simp at hin1

theorem knightMovesAt_ok {pos : Position} {s : Int} {pc : Char}
    (hs : isOnBoard s) (hpc : getSq pos.board s ≠ nullChar)
    (hside : sideMatch pos.side (getSq pos.board s) = true) :
    ∀ m ∈ knightMovesAt pos s pc, MoveOk pos m := by
  intro m hm
  unfold knightMovesAt at hm
  rw [List.mem_flatMap] at hm
  obtain ⟨d, hd, hin⟩ := hm
  have hd2 : d = -17 ∨ d = -15 ∨ d = -10 ∨ d = -6 ∨ d = 6 ∨ d = 10 ∨ d = 15 ∨ d = 17 := by
    simpa [knightOffsets] using hd
  rcases mem_ite_list hin with ⟨hg, hin1⟩ | ⟨_, hin1⟩
  · refine addMove_ok hs hg.1 ?_ hpc hside (Or.inl rfl) m hin1
    rcases hd2 with h | h | h | h | h | h | h | h <;> omega
  · simp at hin1

theorem kingMovesAt_ok {pos : Position} {s : Int} {pc : Char}
    (hs : isOnBoard s) (hpc : getSq pos.board s ≠ nullChar)
    (hside : sideMatch pos.side (getSq pos.board s) = true) :
    ∀ m ∈ kingMovesAt pos s pc, MoveOk pos m := by
  intro m hm
  unfold kingMovesAt at hm
  rw [List.mem_flatMap] at hm
  obtain ⟨d, hd, hin⟩ := hm
  have hd2 : d = -9 ∨ d = -8 ∨ d = -7 ∨ d = -1 ∨ d = 1 ∨ d = 7 ∨ d = 8 ∨ d = 9 := by
    simpa [kingOffsets] using hd
  rcases mem_ite_list hin with ⟨hg, hin1⟩ | ⟨_, hin1⟩
  · refine addMove_ok hs hg.1 ?_ hpc hside (Or.inl rfl) m hin1
    rcases hd2 with h | h | h | h | h | h | h | h <;> omega
  · simp at hin1

theorem slideRayB_ok {pos : Position} {s d : Int} {pc : Char}
    (hs : isOnBoard s) (hpc : getSq pos.board s ≠ nullChar)
    (hside : sideMatch pos.side (getSq pos.board s) = true) (hd : d ≠ 0) :
    ∀ (fuel : Nat) (t : Int) (k : Nat), t = s + (k : Int) * d →
      ∀ m ∈ slideRayB pos pc s d fuel t, MoveOk pos m := by
  intro fuel
  induction fuel with
  | zero => intro t k hk m hm; simp [slideRayB] at hm
  | succ fuel ih =>
    intro t k hk m hm
    rw [slideRayB] at hm
    have hne : s ≠ t + d := by
      intro he
      have : ((k : Int) + 1) * d = 0 := by rw [add_mul]; omega
      rcases mul_eq_zero.mp this with h | h
      · omega
      · exact hd h
    rcases mem_ite_list hm with ⟨hg, hin⟩ | ⟨_, hin⟩
    · rcases mem_ite_list hin with ⟨_, hin1⟩ | ⟨_, hin1⟩
      · rcases List.mem_append.mp hin1 with hadd | hrec
        · exact addMove_ok hs hg.1 hne hpc hside (Or.inl rfl) m hadd
        · refine ih (t + d) (k + 1) ?_ m hrec
          push_cast
          rw [hk]; ring
      · rcases mem_ite_list hin1 with ⟨_, hin2⟩ | ⟨_, hin2⟩
        · exact addMove_ok hs hg.1 hne hpc hside (Or.inl rfl) m hin2
        · simp at hin2
    · simp at hin

theorem slideRayR_ok {pos : Position} {s d : Int} {pc : Char}
    (hs : isOnBoard s) (hpc : getSq pos.board s ≠ nullChar)
    (hside : sideMatch pos.side (getSq pos.board s) = true) (hd : d ≠ 0) :
    ∀ (fuel : Nat) (t : Int) (k : Nat), t = s + (k : Int) * d →
      ∀ m ∈ slideRayR pos pc s d fuel t, MoveOk pos m := by
  intro fuel
  induction fuel with
  | zero => intro t k hk m hm; simp [slideRayR] at hm
  | succ fuel ih =>
    intro t k hk m hm
    rw [slideRayR] at hm
    have hne : s ≠ t + d := by
      intro he
      have : ((k : Int) + 1) * d = 0 := by rw [add_mul]; omega
      rcases mul_eq_zero.mp this with h | h
      · omega
      · exact hd h
    rcases mem_ite_list hm with ⟨hg, hin⟩ | ⟨_, hin⟩
    · rcases mem_ite_list hin with ⟨_, hin1⟩ | ⟨_, hin1⟩
      · rcases List.mem_append.mp hin1 with hadd | hrec
        · exact addMove_ok hs hg.1 hne hpc hside (Or.inl rfl) m hadd
        · refine ih (t + d) (k + 1) ?_ m hrec
          push_cast
          rw [hk]; ring
      · rcases mem_ite_list hin1 with ⟨_, hin2⟩ | ⟨_, hin2⟩
        · exact addMove_ok hs hg.1 hne hpc hside (Or.inl rfl) m hin2
        · simp at hin2
    · simp at hin

theorem bishopMovesAt_ok {pos : Position} {s : Int} {pc : Char}
    (hs : isOnBoard s) (hpc : getSq pos.board s ≠ nullChar)
    (hside : sideMatch pos.side (getSq pos.board s) = true) :
    ∀ m ∈ bishopMovesAt pos s pc, MoveOk pos m := by
  intro m hm
  unfold bishopMovesAt at hm
  rw [List.mem_flatMap] at hm
  obtain ⟨d, hd, hin⟩ := hm
  have hd2 : d = -9 ∨ d = -7 ∨ d = 7 ∨ d = 9 := by simpa [bishopOffsets] using hd
  have hdne : d ≠ 0 := by rcases hd2 with h | h | h | h <;> omega
  exact slideRayB_ok hs hpc hside hdne 16 s 0 (by ring) m hin

theorem rookMovesAt_ok {pos : Position} {s : Int} {pc : Char}
    (hs : isOnBoard s) (hpc : getSq pos.board s ≠ nullChar)
    (hside : sideMatch pos.side (getSq pos.board s) = true) :
    ∀ m ∈ rookMovesAt pos s pc, MoveOk pos m := by
  intro m hm
  unfold rookMovesAt at hm
  rw [List.mem_flatMap] at hm
  obtain ⟨d, hd, hin⟩ := hm
  have hd2 : d = -8 ∨ d = -1 ∨ d = 1 ∨ d = 8 := by simpa [rookOffsets] using hd
  have hdne : d ≠ 0 := by rcases hd2 with h | h | h | h <;> omega
  exact slideRayR_ok hs hpc hside hdne 16 s 0 (by ring) m hin

theorem pieceMovesAt_ok {pos : Position} {s : Int} (hs : isOnBoard s) :
    ∀ m ∈ pieceMovesAt pos s, MoveOk pos m := by
  intro m hm
  unfold pieceMovesAt at hm
  rcases mem_ite_list hm with ⟨_, hin⟩ | ⟨hpc, hin⟩
  · simp at hin
  · rcases mem_ite_list hin with ⟨_, hin1⟩ | ⟨hmis, hin1⟩
    · simp at hin1
    · have hside : sideMatch pos.side (getSq pos.board s) = true := by
        push_neg at hmis
        obtain ⟨hw, hb⟩ := hmis
        unfold sideMatch
        cases hps : pos.side with
        | WHITE =>
          have := hw (by rw [hps])
          simp only [Bool.not_eq_false] at this
          exact this
        | BLACK =>
          have := hb (by rw [hps])
          simp only [Bool.not_eq_false] at this
          exact this
      rcases mem_ite_list hin1 with ⟨hp, hin2⟩ | ⟨_, hin2⟩
      · exact pawnMovesAt_ok hs hpc hside hp m hin2
      · rcases mem_ite_list hin2 with ⟨_, hin3⟩ | ⟨_, hin3⟩
        · exact knightMovesAt_ok hs hpc hside m hin3
        · rcases List.mem_append.mp hin3 with hbr | hk
          · rcases List.mem_append.mp hbr with hbq | hrq
            · rcases mem_ite_list hbq with ⟨_, hin4⟩ | ⟨_, hin4⟩
              · exact bishopMovesAt_ok hs hpc hside m hin4
              · simp at hin4
            · rcases mem_ite_list hrq with ⟨_, hin4⟩ | ⟨_, hin4⟩
              · exact rookMovesAt_ok hs hpc hside m hin4
              · simp at hin4
          · rcases mem_ite_list hk with ⟨_, hin4⟩ | ⟨_, hin4⟩
            · exact kingMovesAt_ok hs hpc hside m hin4
            · simp at hin4

/-- Every pseudo-legal move satisfies the generator invariants. -/
theorem generateMoves_ok {pos : Position} :
    ∀ m ∈ generateMoves pos, MoveOk pos m := by
  intro m hm
  unfold generateMoves at hm
  rw [List.mem_flatMap] at hm
  obtain ⟨s, hsr, hin⟩ := hm
  have hs : isOnBoard (s : Int) := by
    rw [List.mem_range] at hsr
    constructor
    · exact Int.ofNat_nonneg _
    · exact_mod_cast hsr
  exact pieceMovesAt_ok hs m hin

/-- Every legal move is pseudo-legal and passes the self-check filter. -/
theorem mem_generateLegalMoves {pos : Position} {m : Move} :
    m ∈ generateLegalMoves pos
      ↔ m ∈ generateMoves pos ∧ isInCheck (simApply pos m) pos.side = false := by
  unfold generateLegalMoves
  rw [List.mem_filter]
  constructor
  · rintro ⟨h1, h2⟩
    refine ⟨h1, ?_⟩
    rw [Bool.not_eq_true'] at h2
    exact h2
  · rintro ⟨h1, h2⟩
    refine ⟨h1, ?_⟩
    rw [Bool.not_eq_true']
    exact h2

theorem generateLegalMoves_ok {pos : Position} :
    ∀ m ∈ generateLegalMoves pos, MoveOk pos m := fun m hm =>
  generateMoves_ok m (mem_generateLegalMoves.mp hm).1

end ChessEngine

namespace ChessEngine

/-! ### The make/undo round trip -/

theorem posExt {p q : Position} (hb : p.board = q.board) (hs : p.side = q.side) :
    p = q := by
  cases p; cases q; cases hb; cases hs; rfl

theorem make_undo_board {b : Board} {f t : Int} {cap pr placed restored : Char}
    (hf : isOnBoard f) (ht : isOnBoard t) (hne : f ≠ t)
    (hcap : cap = getSq b t)
    (hplaced : placed = if pr ≠ nullChar then
      (if isWhitePiece (getSq b f) then asciiToUpper pr else asciiToLower pr)
      else getSq b f)
    (hrestored : restored = if pr ≠ nullChar then
      (if isWhitePiece (getSq (setSq (setSq b t placed) f nullChar) t) then 'P' else 'p')
      else getSq (setSq (setSq b t placed) f nullChar) t)
    (hpr : pr = nullChar ∨ (pr = 'q' ∧ asciiToLower (getSq b f) = 'p')) :
    setSq (setSq (setSq (setSq b t placed) f nullChar) f restored) t cap = b := by
  have hmoved : getSq (setSq (setSq b t placed) f nullChar) t = placed := by
    rw [getSq_setSq_ne _ f t _ hne, getSq_setSq_self _ _ _ ht]
  have hrestored2 : restored = getSq b f := by
    rw [hrestored, hmoved]
    rcases hpr with hn | ⟨hq, hlow⟩
    · subst hn
      rw [if_neg (fun h => h rfl), hplaced, if_neg (fun h => h rfl)]
    · subst hq
      rcases asciiToLower_eq_p hlow with hpc | hpc
      · rw [hplaced, hpc]
        decide
      · rw [hplaced, hpc]
        decide
  apply board_ext
  intro sq hsq
  by_cases hst : sq = t
  · subst hst
    rw [getSq_setSq_self _ _ _ ht, hcap]
  · by_cases hsf : sq = f
    · subst hsf
      rw [getSq_setSq_ne _ t sq _ (fun h => hst h.symm),
        getSq_setSq_self _ _ _ hf, hrestored2]
    · rw [getSq_setSq_ne _ t sq _ (fun h => hst h.symm),
        getSq_setSq_ne _ f sq _ (fun h => hsf h.symm),
        getSq_setSq_ne _ f sq _ (fun h => hsf h.symm),
        getSq_setSq_ne _ t sq _ (fun h => hst h.symm)]

/-- Round trip: for every move satisfying the generator invariants,
`undoMove` after `makeMove` restores the position exactly. -/
theorem undoMove_makeMove {pos : Position} {m : Move} (hok : MoveOk pos m) :
    undoMove (makeMove pos m).1 (makeMove pos m).2 = pos := by
  obtain ⟨hf, ht, hne, hcap, -, -, -, hpr⟩ := hok
  apply posExt
  · exact make_undo_board hf ht hne hcap rfl rfl hpr
  · show flipSide (flipSide pos.side) = pos.side
    exact flipSide_flipSide _

end ChessEngine

namespace ChessEngine

/-! ### Attack-detection congruence: the legality filter simulates a
promotion move without performing the promotion; replacing the mover's
pawn by the mover's queen on the same square changes no occupancy test and
no attack probe of the opposing side, hence no check verdict. -/

theorem list_any_congr {α : Type} {l : List α} {f g : α → Bool}
    (h : ∀ a ∈ l, f a = g a) : l.any f = l.any g := by
  induction l with
  | nil => rfl
  | cons a l ih =>
    simp only [List.any_cons]
    rw [h a (List.mem_cons_self a l), ih (fun x hx => h x (List.mem_cons_of_mem a hx))]

theorem list_find?_congr {α : Type} {l : List α} {p q : α → Bool}
    (h : ∀ a ∈ l, p a = q a) : l.find? p = l.find? q := by
  induction l with
  | nil => rfl
  | cons a l ih =>
    by_cases hpa : p a = true
    · rw [List.find?_cons_of_pos _ hpa, List.find?_cons_of_pos _ ((h a (List.mem_cons_self a l)) ▸ hpa)]
    · rw [List.find?_cons_of_neg _ hpa,
        List.find?_cons_of_neg _ ((h a (List.mem_cons_self a l)) ▸ hpa),
        ih (fun x hx => h x (List.mem_cons_of_mem a hx))]

theorem pawnAttacks_congr {bySide : Side} {b1 b2 : Board}
    (h : ProbeEq bySide b1 b2) (target : Int) :
    pawnAttacks b1 target bySide = pawnAttacks b2 target bySide := by
  unfold pawnAttacks
  apply list_any_congr
  intro dx _
  dsimp only
  rw [(h _).2]

theorem knightAttacks_congr {bySide : Side} {b1 b2 : Board}
    (h : ProbeEq bySide b1 b2) (target : Int) :
    knightAttacks b1 target bySide = knightAttacks b2 target bySide := by
  unfold knightAttacks
  apply list_any_congr
  intro d _
  dsimp only
  rw [(h _).2]

theorem kingAttacks_congr {bySide : Side} {b1 b2 : Board}
    (h : ProbeEq bySide b1 b2) (target : Int) :
    kingAttacks b1 target bySide = kingAttacks b2 target bySide := by
  unfold kingAttacks
  apply list_any_congr
  intro d _
  dsimp only
  rw [(h _).2]

theorem bishopAttackRay_congr {bySide : Side} {b1 b2 : Board}
    (h : ProbeEq bySide b1 b2) (d : Int) :
    ∀ (fuel : Nat) (sq : Int),
      bishopAttackRay b1 bySide d fuel sq = bishopAttackRay b2 bySide d fuel sq := by
  intro fuel
  induction fuel with
  | zero => intro sq; rfl
  | succ fuel ih =>
    intro sq
    rw [bishopAttackRay, bishopAttackRay]
    by_cases hg : isOnBoard sq ∧ (fileOf (sq - d) - fileOf sq).natAbs = 1
    · rw [if_pos hg, if_pos hg]
      by_cases hocc : getSq b1 sq = nullChar
      · rw [if_pos hocc, if_pos ((h sq).1.mp hocc), ih]
      · rw [if_neg hocc, if_neg (fun hc => hocc ((h sq).1.mpr hc)), (h sq).2]
    · rw [if_neg hg, if_neg hg]

theorem rookAttackRay_congr {bySide : Side} {b1 b2 : Board}
    (h : ProbeEq bySide b1 b2) (d : Int) :
    ∀ (fuel : Nat) (sq : Int),
      rookAttackRay b1 bySide d fuel sq = rookAttackRay b2 bySide d fuel sq := by
  intro fuel
  induction fuel with
  | zero => intro sq; rfl
  | succ fuel ih =>
    intro sq
    rw [rookAttackRay, rookAttackRay]
    by_cases hg : isOnBoard sq ∧ ¬((d = -1 ∨ d = 1) ∧ rankOf (sq - d) ≠ rankOf sq)
    · rw [if_pos hg, if_pos hg]
      by_cases hocc : getSq b1 sq = nullChar
      · rw [if_pos hocc, if_pos ((h sq).1.mp hocc), ih]
      · rw [if_neg hocc, if_neg (fun hc => hocc ((h sq).1.mpr hc)), (h sq).2]
    · rw [if_neg hg, if_neg hg]

theorem isAttackedB_congr {bySide : Side} {b1 b2 : Board}
    (h : ProbeEq bySide b1 b2) (target : Int) :
    isAttackedB b1 target bySide = isAttackedB b2 target bySide := by
  unfold isAttackedB
  rw [pawnAttacks_congr h, knightAttacks_congr h, kingAttacks_congr h,
    list_any_congr (fun d _ => bishopAttackRay_congr h d 16 (target + d)),
    list_any_congr (fun d _ => rookAttackRay_congr h d 16 (target + d))]

end ChessEngine

namespace ChessEngine

theorem setSq_comm {b : Board} {x y : Int} {cx cy : Char} (hne : x ≠ y) :
    setSq (setSq b x cx) y cy = setSq (setSq b y cy) x cx := by
  by_cases hox : isOnBoard x
  · by_cases hoy : isOnBoard y
    · apply board_ext
      intro sq _
      by_cases hsy : sq = y
      · subst hsy
        rw [getSq_setSq_self _ _ _ hoy, getSq_setSq_ne _ x sq _ hne,
          getSq_setSq_self _ _ _ hoy]
      · by_cases hsx : sq = x
        · subst hsx
          rw [getSq_setSq_ne _ y sq _ (fun h => hsy h.symm),
            getSq_setSq_self _ _ _ hox, getSq_setSq_self _ _ _ hox]
        · rw [getSq_setSq_ne _ y sq _ (fun h => hsy h.symm),
            getSq_setSq_ne _ x sq _ (fun h => hsx h.symm),
            getSq_setSq_ne _ x sq _ (fun h => hsx h.symm),
            getSq_setSq_ne _ y sq _ (fun h => hsy h.symm)]
    · rw [setSq_oob (setSq b x cx) y cy hoy, setSq_oob b y cy hoy]
  · rw [setSq_oob b x cx hox, setSq_oob (setSq b y cy) x cx hox]

/-- Swapping the character placed on one square for another one that is
occupancy-equivalent, probe-equivalent for the attacking side, and
king-character-equivalent does not change the check verdict.  (The side
fields of the positions are never read by `isInCheck`.) -/
theorem isInCheck_setSq_congr {B0 : Board} {t : Int} {sd s1 s2 : Side} {c1 c2 : Char}
    (ht : isOnBoard t)
    (hocc : (c1 = nullChar) ↔ (c2 = nullChar))
    (hprobe : ∀ ks : List Char,
      (decide (c1 ≠ nullChar) && sideMatch (flipSide sd) c1 && ks.contains (asciiToLower c1))
        = (decide (c2 ≠ nullChar) && sideMatch (flipSide sd) c2 && ks.contains (asciiToLower c2)))
    (hkc : (c1 = (if sd = Side.WHITE then 'K' else 'k'))
        ↔ (c2 = (if sd = Side.WHITE then 'K' else 'k'))) :
    isInCheck ⟨setSq B0 t c1, s1⟩ sd = isInCheck ⟨setSq B0 t c2, s2⟩ sd := by
  have hprobeEq : ProbeEq (flipSide sd) (setSq B0 t c1) (setSq B0 t c2) := by
    intro sq
    by_cases hst : sq = t
    · subst hst
      constructor
      · rw [getSq_setSq_self _ _ _ ht, getSq_setSq_self _ _ _ ht]
        exact hocc
      · intro ks
        unfold attackProbe
        rw [getSq_setSq_self _ _ _ ht, getSq_setSq_self _ _ _ ht]
        exact hprobe ks
    · constructor
      · rw [getSq_setSq_ne _ t sq _ (fun h => hst h.symm),
          getSq_setSq_ne _ t sq _ (fun h => hst h.symm)]
      · intro ks
        unfold attackProbe
        rw [getSq_setSq_ne _ t sq _ (fun h => hst h.symm),
          getSq_setSq_ne _ t sq _ (fun h => hst h.symm)]
  have hks : kingSquare ⟨setSq B0 t c1, s1⟩ sd = kingSquare ⟨setSq B0 t c2, s2⟩ sd := by
    unfold kingSquare
    dsimp only
    rw [list_find?_congr (fun i _ => ?_)]
    by_cases hit : (i : Int) = t
    · rw [hit, getSq_setSq_self _ _ _ ht, getSq_setSq_self _ _ _ ht]
      exact decide_eq_decide.mpr hkc
    · rw [getSq_setSq_ne _ t _ _ (fun h => hit h.symm),
        getSq_setSq_ne _ t _ _ (fun h => hit h.symm)]
  unfold isInCheck isAttacked
  dsimp only
  rw [hks]
  exact isAttackedB_congr hprobeEq _

/-- The promotion-aware application of `makeMove` and the promotion-blind
simulation of the legality filter yield the same check verdict for the
side that just moved. -/
theorem makeMove_check_eq_sim {pos : Position} {m : Move} (hok : MoveOk pos m) :
    isInCheck (makeMove pos m).1 pos.side = isInCheck (simApply pos m) pos.side := by
  obtain ⟨hf, ht, hne, -, -, -, hside, hpr⟩ := hok
  rcases hpr with hn | ⟨hq, hlow⟩
  · have hX : (if m.promo ≠ nullChar then
        (if isWhitePiece (getSq pos.board m.fromSq) then asciiToUpper m.promo
         else asciiToLower m.promo)
        else getSq pos.board m.fromSq) = getSq pos.board m.fromSq := by
      rw [if_neg (fun h => h hn)]
    have hmk : (makeMove pos m).1 = simApply pos m := by
      unfold makeMove simApply
      dsimp only
      rw [hX]
    rw [hmk]
  · have hpcv : (pos.side = Side.WHITE ∧ getSq pos.board m.fromSq = 'P')
        ∨ (pos.side = Side.BLACK ∧ getSq pos.board m.fromSq = 'p') := by
      rcases asciiToLower_eq_p hlow with hpc | hpc
      · cases hps : pos.side with
        | WHITE =>
          rw [hps, hpc] at hside
          exact absurd hside (by decide)
        | BLACK => exact Or.inr ⟨rfl, hpc⟩
      · cases hps : pos.side with
        | WHITE => exact Or.inl ⟨rfl, hpc⟩
        | BLACK =>
          rw [hps, hpc] at hside
          exact absurd hside (by decide)
    rcases hpcv with ⟨hs1, hpcW⟩ | ⟨hs1, hpcB⟩
    · have hX : (if m.promo ≠ nullChar then
          (if isWhitePiece (getSq pos.board m.fromSq) then asciiToUpper m.promo
           else asciiToLower m.promo)
          else getSq pos.board m.fromSq) = 'Q' := by
        rw [hq, hpcW]; decide
      have hmk : (makeMove pos m).1
          = ⟨setSq (setSq pos.board m.toSq 'Q') m.fromSq nullChar, flipSide pos.side⟩ := by
        unfold makeMove
        dsimp only
        rw [hX]
      have hsim : simApply pos m
          = ⟨setSq (setSq pos.board m.toSq 'P') m.fromSq nullChar, flipSide pos.side⟩ := by
        unfold simApply
        rw [hpcW]
      rw [hmk, hsim, setSq_comm (show m.toSq ≠ m.fromSq from fun h => hne h.symm),
        setSq_comm (show m.toSq ≠ m.fromSq from fun h => hne h.symm), hs1]
      apply isInCheck_setSq_congr ht
      · decide
      · intro ks
        rw [show sideMatch (flipSide Side.WHITE) 'Q' = false from by decide,
          show sideMatch (flipSide Side.WHITE) 'P' = false from by decide]
        simp
      · decide
    · have hX : (if m.promo ≠ nullChar then
          (if isWhitePiece (getSq pos.board m.fromSq) then asciiToUpper m.promo
           else asciiToLower m.promo)
          else getSq pos.board m.fromSq) = 'q' := by
        rw [hq, hpcB]; decide
      have hmk : (makeMove pos m).1
          = ⟨setSq (setSq pos.board m.toSq 'q') m.fromSq nullChar, flipSide pos.side⟩ := by
        unfold makeMove
        dsimp only
        rw [hX]
      have hsim : simApply pos m
          = ⟨setSq (setSq pos.board m.toSq 'p') m.fromSq nullChar, flipSide pos.side⟩ := by
        unfold simApply
        rw [hpcB]
      rw [hmk, hsim, setSq_comm (show m.toSq ≠ m.fromSq from fun h => hne h.symm),
        setSq_comm (show m.toSq ≠ m.fromSq from fun h => hne h.symm), hs1]
      apply isInCheck_setSq_congr ht
      · decide
      · intro ks
        rw [show sideMatch (flipSide Side.BLACK) 'q' = false from by decide,
          show sideMatch (flipSide Side.BLACK) 'p' = false from by decide]
        simp
      · decide

/-- Core of claim C1: a move kept by the legality filter, applied with the
real `makeMove`, leaves the mover's king unattacked. -/
theorem makeMove_legal_no_check {pos : Position} {m : Move}
    (hm : m ∈ generateLegalMoves pos) :
    isInCheck (makeMove pos m).1 pos.side = false := by
  obtain ⟨hraw, hfil⟩ := mem_generateLegalMoves.mp hm
  rw [makeMove_check_eq_sim (generateMoves_ok m hraw)]
  exact hfil

end ChessEngine

namespace ChessEngine

/-! ### Transposition-table and search-shape facts -/

theorem keyMatch_refl (k : TTKey) : keyMatch k k = true := by
  unfold keyMatch
  simp

theorem ttFind_store_self (tt : TT) (k : TTKey) (e : TTEntry) :
    ttFind (ttStore tt k e) k = some e := by
  unfold ttFind ttStore
  simp [List.find?, keyMatch_refl]

theorem alphaBetaSearch_hit {d : Nat} {tt : TT} {pos : Position} {alpha beta : Int}
    {e : TTEntry} (h : ttFind tt (ttKey pos d) = some e) (hd : d ≤ e.depth) :
    alphaBetaSearch d tt pos alpha beta = (e.score, tt) := by
  cases d with
  | zero =>
    simp only [alphaBetaSearch]
    rw [h]
    dsimp only
    rw [if_pos (Nat.zero_le _)]
  | succ n =>
    simp only [alphaBetaSearch]
    rw [h]
    dsimp only
    rw [if_pos hd]

theorem alphaBetaSearch_miss_zero {tt : TT} {pos : Position} {alpha beta : Int}
    (h : ttMiss tt (ttKey pos 0)) :
    alphaBetaSearch 0 tt pos alpha beta = (evaluate pos, tt) := by
  cases hf : ttFind tt (ttKey pos 0) with
  | none =>
    simp only [alphaBetaSearch]
    rw [hf]
  | some e => exact absurd (h e hf) (Nat.not_lt_zero _)

theorem alphaBetaSearch_miss_succ {d : Nat} {tt : TT} {pos : Position} {alpha beta : Int}
    (h : ttMiss tt (ttKey pos (d + 1))) :
    alphaBetaSearch (d + 1) tt pos alpha beta
      = alphaBetaMain (alphaBetaSearch d) d tt pos alpha beta := by
  cases hf : ttFind tt (ttKey pos (d + 1)) with
  | none =>
    simp only [alphaBetaSearch]
    rw [hf]
  | some e =>
    have h1 := h e hf
    have h2 : (ttKey pos (d + 1)).depth = d + 1 := rfl
    simp only [alphaBetaSearch]
    rw [hf]
    dsimp only
    rw [if_neg (by omega)]

theorem alphaBetaMain_empty {recur : TT → Position → Int → Int → Int × TT} {d : Nat}
    {tt : TT} {pos : Position} {alpha beta : Int}
    (hE : generateLegalMoves pos = []) :
    alphaBetaMain recur d tt pos alpha beta
      = (if isInCheck pos pos.side then -100000 + ((d : Int) + 1) else 0,
         ttStore tt (ttKey pos (d + 1))
           ⟨d + 1, if isInCheck pos pos.side then -100000 + ((d : Int) + 1) else 0⟩) := by
  unfold alphaBetaMain
  dsimp only
  rw [hE]
  rw [if_pos rfl]

theorem alphaBetaMain_shape (recur : TT → Position → Int → Int → Int × TT) (d : Nat)
    (tt : TT) (pos : Position) (alpha beta : Int) :
    ∃ v tt2, alphaBetaMain recur d tt pos alpha beta
      = (v, ttStore tt2 (ttKey pos (d + 1)) ⟨d + 1, v⟩) := by
  unfold alphaBetaMain
  dsimp only
  by_cases hE : generateLegalMoves pos = []
  · rw [if_pos hE]
    exact ⟨_, _, rfl⟩
  · rw [if_neg hE]
    exact ⟨_, _, rfl⟩

/-- Core of the amendment of claim C3: repeating a search with the same
position, depth and window returns exactly the score of the first run
(whatever table contents were present beforehand). -/
theorem alphaBetaSearch_idem (d : Nat) (tt : TT) (pos : Position) (alpha beta : Int) :
    (alphaBetaSearch d (alphaBetaSearch d tt pos alpha beta).2 pos alpha beta).1
      = (alphaBetaSearch d tt pos alpha beta).1 := by
  by_cases hhit : ∃ e, ttFind tt (ttKey pos d) = some e ∧ d ≤ e.depth
  · obtain ⟨e, he, hd⟩ := hhit
    rw [alphaBetaSearch_hit he hd]
    dsimp only
    rw [alphaBetaSearch_hit he hd]
  · have hmiss : ttMiss tt (ttKey pos d) := by
      intro e he
      by_contra hlt
      have h2 : (ttKey pos d).depth = d := rfl
      exact hhit ⟨e, he, by omega⟩
    cases d with
    | zero =>
      rw [alphaBetaSearch_miss_zero hmiss]
      dsimp only
      rw [alphaBetaSearch_miss_zero hmiss]
    | succ n =>
      rw [alphaBetaSearch_miss_succ hmiss]
      obtain ⟨v, tt2, hshape⟩ := alphaBetaMain_shape (alphaBetaSearch n) n tt pos alpha beta
      rw [hshape]
      dsimp only
      rw [alphaBetaSearch_hit (ttFind_store_self tt2 (ttKey pos (n + 1)) ⟨n + 1, v⟩) (le_refl _)]

end ChessEngine

namespace ChessEngine

/-! ### Magnitude of material scores versus mate scores -/

theorem asciiToLower_eq_k {c : Char} (h : asciiToLower c = 'k') : c = 'k' ∨ c = 'K' := by
  unfold asciiToLower at h
  by_cases h1 : 'A' ≤ c ∧ c ≤ 'Z'
  · rw [if_pos h1] at h
    have h2 : (Char.ofNat (c.toNat + 32)).toNat = c.toNat + 32 := by
      have hz : c.toNat ≤ 90 := h1.2
      exact toNat_charOfNat _ (by omega)
    have h3 : c.toNat + 32 = 107 := by rw [h] at h2; exact h2.symm
    right
    apply char_eq_of_toNat_eq
    show c.toNat = 75
    omega
  · rw [if_neg h1] at h
    exact Or.inl h

theorem pieceValue_natAbs_le_900 {c : Char} (hc : ¬(c = 'K' ∨ c = 'k')) :
    (pieceValue c).natAbs ≤ 900 := by
  unfold pieceValue
  split_ifs with h1 h2 h3 h4 h5 h6
  · decide
  · decide
  · decide
  · decide
  · decide
  · exact absurd (asciiToLower_eq_k h6).symm hc
  · decide

theorem pieceValue_natAbs_le_20000 (c : Char) : (pieceValue c).natAbs ≤ 20000 := by
  unfold pieceValue
  split_ifs <;> decide

theorem evalFold_bound (b : Board) :
    ∀ (l : List Nat) (acc : Int),
      ((l.foldl (fun (acc : Int) (i : Nat) =>
        if getSq b (i : Int) ≠ nullChar then
          acc + (if isWhitePiece (getSq b (i : Int)) then pieceValue (getSq b (i : Int))
            else -pieceValue (getSq b (i : Int)))
        else acc) acc)).natAbs
      ≤ acc.natAbs
        + 20000 * ((l.filter
            (fun (j : Nat) => decide (getSq b (j : Int) = 'K' ∨ getSq b (j : Int) = 'k'))).length)
        + 900 * ((l.filter
            (fun (j : Nat) => ! decide (getSq b (j : Int) = 'K' ∨ getSq b (j : Int) = 'k'))).length) := by
  intro l
  induction l with
  | nil => intro acc; simp
  | cons i l ih =>
    intro acc
    rw [List.foldl_cons]
    have hcontrib : ((if isWhitePiece (getSq b (i : Int)) then pieceValue (getSq b (i : Int))
        else -pieceValue (getSq b (i : Int)))).natAbs
        = (pieceValue (getSq b (i : Int))).natAbs := by
      by_cases hw : isWhitePiece (getSq b (i : Int)) = true
      · rw [if_pos hw]
      · rw [if_neg hw, Int.natAbs_neg]
    have hstep : ∀ w : Nat, (pieceValue (getSq b (i : Int))).natAbs ≤ w →
        ((if getSq b (i : Int) ≠ nullChar then
          acc + (if isWhitePiece (getSq b (i : Int)) then pieceValue (getSq b (i : Int))
            else -pieceValue (getSq b (i : Int)))
          else acc)).natAbs ≤ acc.natAbs + w := by
      intro w hw
      by_cases hocc : getSq b (i : Int) ≠ nullChar
      · rw [if_pos hocc]
        have h1 := Int.natAbs_add_le acc
          (if isWhitePiece (getSq b (i : Int)) then pieceValue (getSq b (i : Int))
            else -pieceValue (getSq b (i : Int)))
        rw [hcontrib] at h1
        omega
      · rw [if_neg hocc]
        omega
    have hrest := ih ((if getSq b (i : Int) ≠ nullChar then
        acc + (if isWhitePiece (getSq b (i : Int)) then pieceValue (getSq b (i : Int))
          else -pieceValue (getSq b (i : Int)))
        else acc))
    by_cases hking : getSq b (i : Int) = 'K' ∨ getSq b (i : Int) = 'k'
    · have hf1 : List.filter
          (fun (j : Nat) => decide (getSq b (j : Int) = 'K' ∨ getSq b (j : Int) = 'k')) (i :: l)
          = i :: List.filter
            (fun (j : Nat) => decide (getSq b (j : Int) = 'K' ∨ getSq b (j : Int) = 'k')) l :=
        List.filter_cons_of_pos (decide_eq_true hking)
      have hf2 : List.filter
          (fun (j : Nat) => ! decide (getSq b (j : Int) = 'K' ∨ getSq b (j : Int) = 'k')) (i :: l)
          = List.filter
            (fun (j : Nat) => ! decide (getSq b (j : Int) = 'K' ∨ getSq b (j : Int) = 'k')) l :=
        List.filter_cons_of_neg (by simp [hking])
      rw [hf1, hf2]
      have h2 := hstep 20000 (pieceValue_natAbs_le_20000 _)
      simp only [List.length_cons]
      omega
    · have hf1 : List.filter
          (fun (j : Nat) => decide (getSq b (j : Int) = 'K' ∨ getSq b (j : Int) = 'k')) (i :: l)
          = List.filter
            (fun (j : Nat) => decide (getSq b (j : Int) = 'K' ∨ getSq b (j : Int) = 'k')) l :=
        List.filter_cons_of_neg (by simpa using hking)
      have hf2 : List.filter
          (fun (j : Nat) => ! decide (getSq b (j : Int) = 'K' ∨ getSq b (j : Int) = 'k')) (i :: l)
          = i :: List.filter
            (fun (j : Nat) => ! decide (getSq b (j : Int) = 'K' ∨ getSq b (j : Int) = 'k')) l :=
        List.filter_cons_of_pos (by simpa using hking)
      rw [hf1, hf2]
      have h2 := hstep 900 (pieceValue_natAbs_le_900 hking)
      simp only [List.length_cons]
      omega

/-- With at most two kings on the board (the data-model invariant allows
one per side) the material evaluation is bounded by
`2 * 20000 + 64 * 900 = 97600` in magnitude. -/
theorem evaluate_natAbs_le {pos : Position} (hk : kingCount pos.board ≤ 2) :
    (evaluate pos).natAbs ≤ 97600 := by
  unfold evaluate
  dsimp only
  have hb := evalFold_bound pos.board (List.range 64) 0
  unfold kingCount at hk
  have hnf : ((List.range 64).filter
      (fun (i : Nat) => ! decide (getSq pos.board (i : Int) = 'K' ∨ getSq pos.board (i : Int) = 'k'))).length
      ≤ 64 := by
    calc _ ≤ (List.range 64).length := List.length_filter_le _ _
      _ = 64 := List.length_range 64
  split_ifs
  · omega
  · rw [Int.natAbs_neg]
    omega

end ChessEngine

namespace ChessEngine

/-! ### Root selector and move ordering -/

theorem mem_insertSorted {pos : Position} {m x : Move} {l : List Move} :
    x ∈ insertSorted pos m l ↔ x = m ∨ x ∈ l := by
  induction l with
  | nil => simp [insertSorted]
  | cons a l ih =>
    unfold insertSorted
    by_cases hc : mvvScore pos m ≥ mvvScore pos a
    · rw [if_pos hc]
      simp
    · rw [if_neg hc]
      simp only [List.mem_cons, ih]
      tauto

theorem mem_sortMoves {pos : Position} {ms : List Move} {x : Move} :
    x ∈ sortMoves pos ms ↔ x ∈ ms := by
  induction ms with
  | nil => simp [sortMoves]
  | cons a ms ih =>
    unfold sortMoves at ih ⊢
    rw [List.foldr_cons, mem_insertSorted, ih, List.mem_cons]

theorem length_insertSorted {pos : Position} {m : Move} {l : List Move} :
    (insertSorted pos m l).length = l.length + 1 := by
  induction l with
  | nil => rfl
  | cons a l ih =>
    unfold insertSorted
    by_cases hc : mvvScore pos m ≥ mvvScore pos a
    · rw [if_pos hc]
      simp
    · rw [if_neg hc]
      simp [ih]

theorem length_sortMoves {pos : Position} {ms : List Move} :
    (sortMoves pos ms).length = ms.length := by
  induction ms with
  | nil => rfl
  | cons a ms ih =>
    unfold sortMoves at ih ⊢
    rw [List.foldr_cons, length_insertSorted, ih, List.length_cons]

theorem sbLoop_mem {recur : TT → Position → Int → Int → Int × TT} {rnd : Nat → Rat}
    {p : Rat} {pos : Position} :
    ∀ (l : List Move) (i : Nat) (tt : TT) (bs : Int) (best : Move),
      (sbLoop recur rnd p pos l i tt bs best).1 = best
        ∨ (sbLoop recur rnd p pos l i tt bs best).1 ∈ l := by
  intro l
  induction l with
  | nil => intro i tt bs best; exact Or.inl rfl
  | cons m ms ih =>
    intro i tt bs best
    unfold sbLoop
    by_cases hbl : 0 < p ∧ rnd i < p
    · rw [if_pos hbl]
      exact Or.inr (List.mem_cons_self m ms)
    · rw [if_neg hbl]
      dsimp only
      by_cases hsc : -(recur tt (makeMove pos m).1 (-1000000000) 1000000000).1 > bs
      · rw [if_pos hsc]
        rcases ih (i + 1) _ _ m with h | h
        · exact Or.inr (by rw [h]; exact List.mem_cons_self m ms)
        · exact Or.inr (List.mem_cons_of_mem m h)
      · rw [if_neg hsc]
        rcases ih (i + 1) _ _ best with h | h
        · exact Or.inl h
        · exact Or.inr (List.mem_cons_of_mem m h)

theorem sbLoop_blunder {recur : TT → Position → Int → Int → Int × TT} {rnd : Nat → Rat}
    {p : Rat} {pos : Position} (hp : 0 < p) :
    ∀ (l : List Move) (idx i0 : Nat) (tt : TT) (bs : Int) (best : Move)
      (hlen : idx < l.length),
      (∀ j, j < idx → ¬ rnd (i0 + j) < p) → rnd (i0 + idx) < p →
      (sbLoop recur rnd p pos l i0 tt bs best).1 = l.get ⟨idx, hlen⟩ := by
  intro l
  induction l with
  | nil =>
    intro idx i0 tt bs best hlen
    exact absurd hlen (by simp)
  | cons m ms ih =>
    intro idx i0 tt bs best hlen hprev hhit
    cases idx with
    | zero =>
      unfold sbLoop
      rw [if_pos ⟨hp, by simpa using hhit⟩]
      rfl
    | succ idx =>
      have hfirst : ¬ (0 < p ∧ rnd i0 < p) := by
        intro hc
        exact hprev 0 (by omega) (by simpa using hc.2)
      unfold sbLoop
      rw [if_neg hfirst]
      dsimp only
      have hprev2 : ∀ j, j < idx → ¬ rnd (i0 + 1 + j) < p := by
        intro j hj
        have heq : i0 + 1 + j = i0 + (j + 1) := by omega
        rw [heq]
        exact hprev (j + 1) (by omega)
      have hhit2 : rnd (i0 + 1 + idx) < p := by
        have heq : i0 + 1 + idx = i0 + (idx + 1) := by omega
        rw [heq]
        exact hhit
      by_cases hsc : -(recur tt (makeMove pos m).1 (-1000000000) 1000000000).1 > bs
      · rw [if_pos hsc]
        exact ih idx (i0 + 1) _ _ m (by simpa using hlen) hprev2 hhit2
      · rw [if_neg hsc]
        exact ih idx (i0 + 1) _ _ best (by simpa using hlen) hprev2 hhit2

/-! ### `Game` wrapper facts -/

theorem setLevel_cases (g : Game) (tt : TT) (lvl : Int) :
    (setLevel g 1 tt = ({ g with levelDepth := 2, randomProbability := 35 / 100 }, ttEmpty))
    ∧ (setLevel g 2 tt = ({ g with levelDepth := 4, randomProbability := 0 }, ttEmpty))
    ∧ (setLevel g 3 tt = ({ g with levelDepth := 6, randomProbability := 0 }, ttEmpty))
    ∧ (lvl ≠ 1 → lvl ≠ 2 → setLevel g lvl tt = setLevel g 3 tt)
    ∧ ((setLevel g lvl tt).2 = ttEmpty) := by
  refine ⟨rfl, rfl, rfl, ?_, ?_⟩
  · intro h1 h2
    unfold setLevel
    rw [if_neg h1, if_neg h2, if_neg (by decide), if_neg (by decide)]
  · unfold setLevel
    by_cases h1 : lvl = 1
    · rw [if_pos h1]
    · rw [if_neg h1]
      by_cases h2 : lvl = 2
      · rw [if_pos h2]
      · rw [if_neg h2]

end ChessEngine

namespace ChessEngine

theorem searchBestMove_nil {rnd : Nat → Rat} {tt : TT} {pos : Position} {depth : Nat}
    {p : Rat} (hm : generateLegalMoves pos = []) :
    searchBestMove rnd tt pos depth p = (none, tt) := by
  unfold searchBestMove
  dsimp only
  rw [hm]

theorem searchBestMove_eq_loop {rnd : Nat → Rat} {tt : TT} {pos : Position} {depth : Nat}
    {p : Rat} {m0 : Move} {rest : List Move} (hm : generateLegalMoves pos = m0 :: rest) :
    searchBestMove rnd tt pos depth p
      = (some (sbLoop (alphaBetaSearch (depth - 1)) rnd p pos
            (sortMoves pos (generateLegalMoves pos)) 0 tt (-1000000000) m0).1,
         (sbLoop (alphaBetaSearch (depth - 1)) rnd p pos
            (sortMoves pos (generateLegalMoves pos)) 0 tt (-1000000000) m0).2) := by
  unfold searchBestMove
  dsimp only
  rw [hm]

/-- With a blunder probability of at least 1 and draws from [0,1), the
root selector returns the head of the MVV-LVA-sorted legal move list
without running any search and without touching the table. -/
theorem searchBestMove_prob_one {rnd : Nat → Rat} {tt : TT} {pos : Position}
    {depth : Nat} {p : Rat} (hp : 1 ≤ p) (hr : ∀ k, 0 ≤ rnd k ∧ rnd k < 1)
    (hne : generateLegalMoves pos ≠ []) :
    searchBestMove rnd tt pos depth p
      = ((sortMoves pos (generateLegalMoves pos)).head?, tt) := by
  obtain ⟨m0, rest, hm⟩ : ∃ m0 rest, generateLegalMoves pos = m0 :: rest := by
    cases hm : generateLegalMoves pos with
    | nil => exact absurd hm hne
    | cons a l => exact ⟨a, l, rfl⟩
  rw [searchBestMove_eq_loop hm]
  cases hs : sortMoves pos (generateLegalMoves pos) with
  | nil =>
    have hl := @length_sortMoves pos (generateLegalMoves pos)
    rw [hs, hm] at hl
    simp at hl
  | cons s0 srest =>
    unfold sbLoop
    rw [if_pos ⟨lt_of_lt_of_le zero_lt_one hp, lt_of_lt_of_le (hr 0).2 hp⟩]
    rfl

/-- Whenever the first draw below the blunder probability occurs at index
`idx`, the root selector returns the move at that index of the sorted
list. -/
theorem searchBestMove_blunder_at {rnd : Nat → Rat} {tt : TT} {pos : Position}
    {depth : Nat} {p : Rat} {idx : Nat} (hp : 0 < p)
    (hlen : idx < (sortMoves pos (generateLegalMoves pos)).length)
    (hprev : ∀ j, j < idx → ¬ rnd j < p) (hhit : rnd idx < p) :
    (searchBestMove rnd tt pos depth p).1
      = some ((sortMoves pos (generateLegalMoves pos)).get ⟨idx, hlen⟩) := by
  obtain ⟨m0, rest, hm⟩ : ∃ m0 rest, generateLegalMoves pos = m0 :: rest := by
    cases hmo : generateLegalMoves pos with
    | nil =>
      rw [hmo] at hlen
      simp [sortMoves] at hlen
    | cons a l => exact ⟨a, l, rfl⟩
  rw [searchBestMove_eq_loop hm]
  refine congrArg some (sbLoop_blunder hp _ idx 0 tt (-1000000000) m0 hlen ?_ ?_)
  · intro j hj
    simpa using hprev j hj
  · simpa using hhit

theorem searchBestMove_some_mem {rnd : Nat → Rat} {tt : TT} {pos : Position}
    {depth : Nat} {p : Rat} {m : Move}
    (h : (searchBestMove rnd tt pos depth p).1 = some m) :
    m ∈ generateLegalMoves pos := by
  cases hm : generateLegalMoves pos with
  | nil =>
    rw [searchBestMove_nil hm] at h
    exact absurd h (by simp)
  | cons m0 rest =>
    rw [searchBestMove_eq_loop hm] at h
    have h2 := Option.some.inj h
    rcases sbLoop_mem (sortMoves pos (generateLegalMoves pos)) 0 tt (-1000000000) m0 with hb | hmem
    · have h3 : m = m0 := by rw [← h2, hb]
      rw [h3]
      exact List.mem_cons_self m0 rest
    · have h3 := mem_sortMoves.mp hmem
      rw [h2] at h3
      rw [hm] at h3
      exact h3

/-! ### `playerMove` behaviour -/

theorem playerMove_spec (g : Game) (s : String) :
    ((playerMove g s).1 = true
      ↔ s.length = 4 ∧ ∃ m ∈ generateLegalMoves g.pos,
          m.fromSq = algebraicToSquare (s.data.getD 0 nullChar) (s.data.getD 1 nullChar)
          ∧ m.toSq = algebraicToSquare (s.data.getD 2 nullChar) (s.data.getD 3 nullChar))
    ∧ ((playerMove g s).1 = false → (playerMove g s).2 = g) := by
  by_cases hlen : s.length ≠ 4
  · have h1 : playerMove g s = (false, g) := by
      unfold playerMove
      rw [if_pos hlen]
    rw [h1]
    constructor
    · constructor
      · intro h
        exact absurd h (by simp)
      · rintro ⟨h4, -⟩
        exact absurd h4 hlen
    · intro
      rfl
  · have hlen4 : s.length = 4 := not_not.mp hlen
    unfold playerMove
    rw [if_neg hlen]
    dsimp only
    cases hf : (generateLegalMoves g.pos).find? (fun m => decide (m.fromSq
        = algebraicToSquare (s.data.getD 0 nullChar) (s.data.getD 1 nullChar)
        ∧ m.toSq = algebraicToSquare (s.data.getD 2 nullChar) (s.data.getD 3 nullChar))) with
    | some m =>
      refine ⟨iff_of_true rfl ⟨hlen4, m, List.mem_of_find?_eq_some hf, ?_⟩, ?_⟩
      · have hpm := List.find?_some hf
        exact of_decide_eq_true hpm
      · intro hcon
        exact absurd hcon (by simp)
    | none =>
      dsimp only
      constructor
      · constructor
        · intro hcon
          exact absurd hcon (by simp)
        · rintro ⟨-, m, hmem, h1, h2⟩
          have hnone := List.find?_eq_none.mp hf m hmem
          exact (hnone (decide_eq_true ⟨h1, h2⟩)).elim
      · intro
        rfl

/-! ### Mate and stalemate scoring -/

/-- A node with no legal moves at depth `d ≥ 1` (and no qualifying cache
entry) returns and stores `-100000 + d` when in check, `0` otherwise. -/
theorem ab_mate_value {d : Nat} {tt : TT} {pos : Position} {alpha beta : Int}
    (hd : 1 ≤ d) (hmiss : ttMiss tt (ttKey pos d))
    (hE : generateLegalMoves pos = []) :
    alphaBetaSearch d tt pos alpha beta
      = (if isInCheck pos pos.side then -100000 + (d : Int) else 0,
         ttStore tt (ttKey pos d)
           ⟨d, if isInCheck pos pos.side then -100000 + (d : Int) else 0⟩) := by
  obtain ⟨e, rfl⟩ : ∃ e, d = e + 1 := ⟨d - 1, by omega⟩
  rw [alphaBetaSearch_miss_succ hmiss, alphaBetaMain_empty hE]
  norm_cast

end ChessEngine

namespace ChessEngine

/-! ### The claims -/

/-- C1: for every position, every move returned by `generateLegalMoves`,
when applied with `makeMove`, yields a position in which the moving side's
king stands on a square not attacked by the opposing side (`isInCheck` is
exactly that attack test at the king's square) — this holds even for
promotion moves, although the filter simulates them without performing the
promotion. -/
theorem claimC1 (pos : Position) (m : Move) (hm : m ∈ generateLegalMoves pos) :
    isInCheck (makeMove pos m).1 pos.side = false :=
  makeMove_legal_no_check hm

set_option maxRecDepth 10000 in
/-- Witness for C1 at a concrete promotion move. -/
theorem claimC1_witness :
    isInCheck (makeMove posProm ⟨8, 0, nullChar, 'q'⟩).1 posProm.side = false :=
  claimC1 posProm ⟨8, 0, nullChar, 'q'⟩ (by decide)

/-- C2: for every position and every move produced by the move generator
(captures and promotions included), `makeMove` followed by `undoMove` with
the resulting undo record restores the position exactly: all 64 board
cells and the side-to-move flag (a promoted pawn reappears as a pawn of
the correct color and the captured piece is restored on the destination
square, both consequences of this equality of positions). -/
theorem claimC2 (pos : Position) (m : Move) (hm : m ∈ generateMoves pos) :
    undoMove (makeMove pos m).1 (makeMove pos m).2 = pos :=
  undoMove_makeMove (generateMoves_ok m hm)

set_option maxRecDepth 10000 in
/-- Witness for C2 at a concrete capture-promotion move. -/
theorem claimC2_witness :
    undoMove (makeMove posPromCap ⟨8, 1, 'r', 'q'⟩).1
        (makeMove posPromCap ⟨8, 1, 'r', 'q'⟩).2 = posPromCap :=
  claimC2 posPromCap ⟨8, 1, 'r', 'q'⟩ (by decide)

set_option maxRecDepth 10000 in
set_option maxHeartbeats 2000000 in
/-- Counterexample to C3 as stated: an earlier search of the same position
and depth with a narrow window `(-1000000, -1000000)` beta-cuts and caches
the bound `-1000000`; a later full-window search of the same position and
depth then returns that cached bound instead of the score `0` the same
call returns on an empty table. -/
theorem claimC3_counterexample :
    (alphaBetaSearch 1 ((alphaBetaSearch 1 ttEmpty posP2 (-1000000) (-1000000)).2)
        posP2 (-1000000000) 1000000000).1
      ≠ (alphaBetaSearch 1 ttEmpty posP2 (-1000000000) 1000000000).1 := by
  decide

/-- C3 (amended): rerunning `alphaBetaSearch` on the same position, depth
and window, starting from the table state left behind by the first run,
returns exactly the first run's score — the cache entry created by an
identical earlier search never changes the score.  (With a different
window the cached entry can change the score, because a beta cutoff caches
the window bound rather than the true value; see the counterexample.) -/
theorem claimC3 (d : Nat) (tt : TT) (pos : Position) (alpha beta : Int) :
    (alphaBetaSearch d (alphaBetaSearch d tt pos alpha beta).2 pos alpha beta).1
      = (alphaBetaSearch d tt pos alpha beta).1 :=
  alphaBetaSearch_idem d tt pos alpha beta

set_option maxRecDepth 10000 in
set_option maxHeartbeats 8000000 in
/-- Counterexample to C4's mate-ordering clause.  `posPA` is mated
immediately (White just mated; remaining depth 3), `posPB` is the same
material where White instead played a waiting rook move and now mates by
force in two more plies (mate node at remaining depth 1).  Searched at the
same depth 3 with the full window, the immediate mate scores `-99997` and
the slower forced mate `-99999`, so after the negamax negation the parent
prefers the slower mate: the faster mate scores strictly less favorably
for the side delivering it. -/
theorem claimC4_counterexample :
    (alphaBetaSearch 3 ttEmpty posPA (-1000000000) 1000000000).1 = -99997
    ∧ (alphaBetaSearch 3 ttEmpty posPB (-1000000000) 1000000000).1 = -99999
    ∧ -(alphaBetaSearch 3 ttEmpty posPA (-1000000000) 1000000000).1
        < -(alphaBetaSearch 3 ttEmpty posPB (-1000000000) 1000000000).1 := by
  have h1 : (alphaBetaSearch 3 ttEmpty posPA (-1000000000) 1000000000).1 = -99997 := by
    decide
  have h2 : (alphaBetaSearch 3 ttEmpty posPB (-1000000000) 1000000000).1 = -99999 := by
    decide
  refine ⟨h1, h2, ?_⟩
  rw [h1, h2]
  decide

/-- C4 (amended): when `alphaBetaSearch` at depth `d ≥ 1` finds no legal
moves (and no qualifying cache entry short-circuits it), it returns and
caches `-100000 + d` if the side to move is in check and `0` otherwise;
these mate scores exceed any material-only score in magnitude (for boards
with at most one king per side and any realistic depth); but the encoding
makes faster mates score LESS favorably for the side delivering them once
the scores are negated up the recursion: a mate detected at a shallower
remaining depth — i.e. more plies away from the root — receives the
strictly higher negated score. -/
theorem claimC4 :
    (∀ (d : Nat) (tt : TT) (pos : Position) (alpha beta : Int),
      1 ≤ d → ttMiss tt (ttKey pos d) → generateLegalMoves pos = [] →
      alphaBetaSearch d tt pos alpha beta
        = (if isInCheck pos pos.side then -100000 + (d : Int) else 0,
           ttStore tt (ttKey pos d)
             ⟨d, if isInCheck pos pos.side then -100000 + (d : Int) else 0⟩))
    ∧ (∀ (d : Nat) (pos : Position), 1 ≤ d → d ≤ 2000 → kingCount pos.board ≤ 2 →
        (evaluate pos).natAbs < ((-100000 : Int) + (d : Int)).natAbs)
    ∧ (∀ (d1 d2 : Nat) (tt1 tt2 : TT) (q1 q2 : Position) (a1 b1 a2 b2 : Int),
        1 ≤ d1 → d1 < d2 →
        ttMiss tt1 (ttKey q1 d1) → ttMiss tt2 (ttKey q2 d2) →
        generateLegalMoves q1 = [] → generateLegalMoves q2 = [] →
        isInCheck q1 q1.side = true → isInCheck q2 q2.side = true →
        -(alphaBetaSearch d1 tt1 q1 a1 b1).1 > -(alphaBetaSearch d2 tt2 q2 a2 b2).1) := by
  refine ⟨fun d tt pos alpha beta hd hmiss hE => ab_mate_value hd hmiss hE, ?_, ?_⟩
  · intro d pos hd1 hd2 hk
    have hb := evaluate_natAbs_le hk
    omega
  · intro d1 d2 tt1 tt2 q1 q2 a1 b1 a2 b2 hd1 hlt hm1 hm2 hE1 hE2 hc1 hc2
    rw [ab_mate_value hd1 hm1 hE1, ab_mate_value (by omega) hm2 hE2]
    dsimp only
    rw [if_pos hc1, if_pos hc2]
    omega

set_option maxRecDepth 10000 in
/-- Witness for C4: the mated position `posPA` searched at depth 1 on the
empty table returns and caches the mate score `-99999`. -/
theorem claimC4_witness :
    alphaBetaSearch 1 ttEmpty posPA 0 0
      = (if isInCheck posPA posPA.side then -100000 + ((1 : Nat) : Int) else 0,
         ttStore ttEmpty (ttKey posPA 1)
           ⟨1, if isInCheck posPA posPA.side then -100000 + ((1 : Nat) : Int) else 0⟩) :=
  claimC4.1 1 ttEmpty posPA 0 0 (by decide)
    (fun e he => by simp [ttFind, ttEmpty] at he) (by decide)

/-- Counterexample to C5 as stated: a depth-0 call that misses the table
returns the static evaluation and stores nothing, so the entry at its
exact key is NOT overwritten on this call — after the call the table still
has no entry at that key. -/
theorem claimC5_counterexample :
    (alphaBetaSearch 0 ttEmpty posP2 0 0).2 = ttEmpty
    ∧ ttFind ttEmpty (ttKey posP2 0) = none :=
  ⟨rfl, rfl⟩

/-- C5 (amended): a stored entry is reused — returned immediately with the
table unchanged — exactly when its recorded depth is at least the depth
requested; on a miss at depth `d ≥ 1` the entry at the exact
(board, side, depth) key is overwritten unconditionally with the requested
depth and the returned score; a depth-0 miss returns the static evaluation
and writes nothing (so "overwritten on every call" fails only there and on
reuse hits). -/
theorem claimC5 :
    (∀ (d : Nat) (tt : TT) (pos : Position) (alpha beta : Int) (e : TTEntry),
      ttFind tt (ttKey pos d) = some e → d ≤ e.depth →
      alphaBetaSearch d tt pos alpha beta = (e.score, tt))
    ∧ (∀ (d : Nat) (tt : TT) (pos : Position) (alpha beta : Int),
        ttMiss tt (ttKey pos d) → 1 ≤ d →
        ttFind (alphaBetaSearch d tt pos alpha beta).2 (ttKey pos d)
          = some ⟨d, (alphaBetaSearch d tt pos alpha beta).1⟩)
    ∧ (∀ (tt : TT) (pos : Position) (alpha beta : Int),
        ttMiss tt (ttKey pos 0) →
        alphaBetaSearch 0 tt pos alpha beta = (evaluate pos, tt)) := by
  refine ⟨fun d tt pos alpha beta e he hd => alphaBetaSearch_hit he hd, ?_,
    fun tt pos alpha beta hm => alphaBetaSearch_miss_zero hm⟩
  intro d tt pos alpha beta hmiss hd
  obtain ⟨n, rfl⟩ : ∃ n, d = n + 1 := ⟨d - 1, by omega⟩
  rw [alphaBetaSearch_miss_succ hmiss]
  obtain ⟨v, tt2, hshape⟩ := alphaBetaMain_shape (alphaBetaSearch n) n tt pos alpha beta
  rw [hshape]
  exact ttFind_store_self tt2 (ttKey pos (n + 1)) ⟨n + 1, v⟩

set_option maxRecDepth 10000 in
/-- Witness for C5: after a depth-1 search of `posP2` on the empty table,
the entry at the exact key holds the requested depth and the returned
score. -/
theorem claimC5_witness :
    ttFind (alphaBetaSearch 1 ttEmpty posP2 0 0).2 (ttKey posP2 1)
      = some ⟨1, (alphaBetaSearch 1 ttEmpty posP2 0 0).1⟩ :=
  claimC5.2.1 1 ttEmpty posP2 0 0
    (fun e he => by simp [ttFind, ttEmpty] at he) (by decide)

/-- C6: `playerMove` returns true exactly when the string has exactly 4
characters and its parsed source and destination squares match a currently
legal move; whenever it returns false the whole game state — in particular
the board contents and the side to move — is left exactly as it was. -/
theorem claimC6 (g : Game) (s : String) :
    ((playerMove g s).1 = true
      ↔ s.length = 4 ∧ ∃ m ∈ generateLegalMoves g.pos,
          m.fromSq = algebraicToSquare (s.data.getD 0 nullChar) (s.data.getD 1 nullChar)
          ∧ m.toSq = algebraicToSquare (s.data.getD 2 nullChar) (s.data.getD 3 nullChar))
    ∧ ((playerMove g s).1 = false → (playerMove g s).2 = g) :=
  playerMove_spec g s

set_option maxRecDepth 10000 in
set_option maxHeartbeats 2000000 in
/-- Witness for C6: a well-formed but illegal move string leaves the game
unchanged. -/
theorem claimC6_witness : (playerMove initGame "e9e9").2 = initGame :=
  (claimC6 initGame "e9e9").2 (by decide)

/-- C7: no move produced by `generateMoves` — and hence none returned by
`generateLegalMoves` — has a destination square occupied by a king: a
pseudo-legal capture onto a king is silently dropped in `addMove`, so a
generated move's `captured` field is never `'k'` or `'K'` and the
destination cell never holds a king. -/
theorem claimC7 (pos : Position) (m : Move)
    (hm : m ∈ generateMoves pos ∨ m ∈ generateLegalMoves pos) :
    m.captured ≠ 'k' ∧ m.captured ≠ 'K'
    ∧ getSq pos.board m.toSq ≠ 'k' ∧ getSq pos.board m.toSq ≠ 'K' := by
  have hraw : m ∈ generateMoves pos := by
    rcases hm with h | h
    · exact h
    · exact (mem_generateLegalMoves.mp h).1
  obtain ⟨-, -, -, hcap, hck, -, -, -⟩ := generateMoves_ok m hraw
  have h1 : m.captured ≠ 'k' := by
    intro h
    apply hck
    rw [h]
    decide
  have h2 : m.captured ≠ 'K' := by
    intro h
    apply hck
    rw [h]
    decide
  exact ⟨h1, h2, by rw [← hcap]; exact h1, by rw [← hcap]; exact h2⟩

set_option maxRecDepth 10000 in
/-- Witness for C7 at a concrete capture move. -/
theorem claimC7_witness :
    (⟨8, 1, 'r', 'q'⟩ : Move).captured ≠ 'k'
    ∧ (⟨8, 1, 'r', 'q'⟩ : Move).captured ≠ 'K'
    ∧ getSq posPromCap.board (⟨8, 1, 'r', 'q'⟩ : Move).toSq ≠ 'k'
    ∧ getSq posPromCap.board (⟨8, 1, 'r', 'q'⟩ : Move).toSq ≠ 'K' :=
  claimC7 posPromCap ⟨8, 1, 'r', 'q'⟩ (Or.inl (by decide))

/-- C8: under the precondition that the position has at least one legal
move, `searchBestMove` returns one of the position's legal moves; with no
legal moves the very first access `moves[0]` is out of bounds — modelled
by the `none` result, which occurs exactly in that case. -/
theorem claimC8 (rnd : Nat → Rat) (tt : TT) (pos : Position) (depth : Nat) (p : Rat) :
    ((searchBestMove rnd tt pos depth p).1 = none ↔ generateLegalMoves pos = [])
    ∧ (∀ m, (searchBestMove rnd tt pos depth p).1 = some m
        → m ∈ generateLegalMoves pos) := by
  constructor
  · constructor
    · intro h
      by_cases hE : generateLegalMoves pos = []
      · exact hE
      · obtain ⟨m0, rest, hm⟩ : ∃ m0 rest, generateLegalMoves pos = m0 :: rest := by
          cases hmo : generateLegalMoves pos with
          | nil => exact absurd hmo hE
          | cons a l => exact ⟨a, l, rfl⟩
        rw [searchBestMove_eq_loop hm] at h
        exact absurd h (by simp)
    · intro hE
      rw [searchBestMove_nil hE]
  · intro m hm
    exact searchBestMove_some_mem hm

set_option maxRecDepth 10000 in
/-- Witness for C8: at a concrete position the selected move is legal. -/
theorem claimC8_witness :
    (⟨56, 48, nullChar, nullChar⟩ : Move) ∈ generateLegalMoves posP2 :=
  (claimC8 (fun _ => 0) ttEmpty posP2 1 1).2 ⟨56, 48, nullChar, nullChar⟩ (by decide)

/-- C9: if the blunder probability is at least 1 (so every draw from the
uniform [0,1) source is below it), `searchBestMove` returns the first move
of the MVV-LVA-sorted legal move list, with the table untouched — no
search is run; more generally, for any `p > 0`, whenever the first draw
below `p` occurs at index `idx`, the move at that index of the sorted list
is returned immediately. -/
theorem claimC9 (rnd : Nat → Rat) (tt : TT) (pos : Position) (depth : Nat)
    (p : Rat) (idx : Nat) :
    (1 ≤ p → (∀ k, 0 ≤ rnd k ∧ rnd k < 1) → generateLegalMoves pos ≠ [] →
      searchBestMove rnd tt pos depth p
        = ((sortMoves pos (generateLegalMoves pos)).head?, tt))
    ∧ (0 < p → ∀ hlen : idx < (sortMoves pos (generateLegalMoves pos)).length,
        (∀ j, j < idx → ¬ rnd j < p) → rnd idx < p →
        (searchBestMove rnd tt pos depth p).1
          = some ((sortMoves pos (generateLegalMoves pos)).get ⟨idx, hlen⟩)) :=
  ⟨fun hp hr hne => searchBestMove_prob_one hp hr hne,
   fun hp hlen hprev hhit => searchBestMove_blunder_at hp hlen hprev hhit⟩

set_option maxRecDepth 10000 in
/-- Witness for C9 with blunder probability 1 and an all-zero draw
stream. -/
theorem claimC9_witness :
    searchBestMove (fun _ => 0) ttEmpty posP2 1 1
      = ((sortMoves posP2 (generateLegalMoves posP2)).head?, ttEmpty) :=
  (claimC9 (fun _ => 0) ttEmpty posP2 1 1 0).1 (by decide)
    (fun k => ⟨le_refl 0, by decide⟩) (by decide)

/-- C10: `Game::setLevel` maps level 1 to depth 2 with blunder probability
0.35 and level 2 to depth 4 with probability 0; every other integer —
including 0, negatives and values above 3 — yields exactly the level-3
settings (depth 6, probability 0); every call clears the transposition
table; and the constructor's default level is 2. -/
theorem claimC10 (g : Game) (tt : TT) (lvl : Int) :
    (setLevel g 1 tt = ({ g with levelDepth := 2, randomProbability := 35 / 100 }, ttEmpty))
    ∧ (setLevel g 2 tt = ({ g with levelDepth := 4, randomProbability := 0 }, ttEmpty))
    ∧ (setLevel g 3 tt = ({ g with levelDepth := 6, randomProbability := 0 }, ttEmpty))
    ∧ (lvl ≠ 1 → lvl ≠ 2 → setLevel g lvl tt = setLevel g 3 tt)
    ∧ ((setLevel g lvl tt).2 = ttEmpty)
    ∧ (mkGameDefault tt = mkGame 2 tt) := by
  obtain ⟨a, b, c, d2, e⟩ := setLevel_cases g tt lvl
  exact ⟨a, b, c, d2, e, rfl⟩

/-- Witness for C10 at the out-of-range level `-5`. -/
theorem claimC10_witness :
    setLevel initGame (-5) ttEmpty = setLevel initGame 3 ttEmpty :=
  (claimC10 initGame ttEmpty (-5)).2.2.2.1 (by decide) (by decide)

end ChessEngine
